import Mathlib

/-!
Verification development for a toolkit of four graph/geometry heuristics:
Welsh–Powell greedy coloring (`coloracao.py`), greedy dominating set
(`dom.py`), sequential greedy Max-Cut (`max_cut.py`) and nearest-neighbor
TSP (`vizinho_mais_proximo.py`).  The Python sources are shallowly embedded:
`networkx.Graph` becomes a structure holding the node list (insertion order)
and the list of stored undirected edges (one entry per unordered pair, as in
a simple graph); dictionaries become total functions; the file is a list of
lines; fallible parsing returns `Except`/`Option`.
-/

open List

deriving instance DecidableEq for Except

/-! ### String utilities mirroring Python `str` methods -/

/-- The string constant used for comment-line detection. -/
def strC : String := "c"

/-- The string constant used for problem-line detection. -/
def strP : String := "p"

/-- The string constant used for edge-line detection. -/
def strE : String := "e"

/-- The empty string. -/
def strEmpty : String := ""

/-- Python `str.strip()` with no argument: drop leading and trailing
whitespace.  Lines are handled as their character lists (`String.data`)
throughout, mirroring the Python methods character by character. -/
def pyStrip (cs : List Char) : List Char :=
  ((cs.dropWhile (fun ch => ch.isWhitespace)).reverse.dropWhile
    (fun ch => ch.isWhitespace)).reverse

/-- Python `str.startswith(pat)` (first argument is the pattern). -/
def startsWithChars : List Char → List Char → Bool
  | [], _ => true
  | _ :: _, [] => false
  | p :: ps, ch :: cs => p == ch && startsWithChars ps cs

/-- The code point of `ch` after Python `str.upper()`, for ASCII letters
(the marker comparisons only involve ASCII). -/
def upNat (ch : Char) : Nat :=
  if 97 <= ch.toNat && ch.toNat <= 122 then ch.toNat - 32 else ch.toNat

/-- Python `linha.upper().startswith(pat)` for an uppercase ASCII pattern
`pat` (first argument). -/
def startsWithUpper : List Char → List Char → Bool
  | [], _ => true
  | _ :: _, [] => false
  | p :: ps, ch :: cs => p.toNat == upNat ch && startsWithUpper ps cs

/-- Tokenizer worker for `str.split()`: accumulate the current token in
reverse, emitting it at each whitespace run. -/
def splitWsAux : List Char → List Char → List (List Char)
  | [], acc => if acc.isEmpty then [] else [acc.reverse]
  | ch :: rest, acc =>
    if ch.isWhitespace then
      if acc.isEmpty then splitWsAux rest [] else acc.reverse :: splitWsAux rest []
    else splitWsAux rest (ch :: acc)

/-- Python `str.split()` with no argument: split on runs of whitespace,
dropping empty fields. -/
def splitWs (cs : List Char) : List (List Char) :=
  splitWsAux cs []

/-- Parse a nonempty all-digit string to a natural number (most significant
digit first); `none` otherwise. -/
def digitsVal : List Char → Option Nat
  | [] => none
  | cs =>
    if cs.all (fun ch => ch.isDigit) then
      some (cs.foldl (fun acc ch => acc * 10 + (ch.toNat - ('0').toNat)) 0)
    else none

/-- Python `int(token)` on a whitespace-free token: optional sign followed by
decimal digits; any other shape raises `ValueError`, modelled as `none`. -/
def pyInt : List Char → Option Int
  | '-' :: cs => (digitsVal cs).map (fun n => -(n : Int))
  | '+' :: cs => (digitsVal cs).map (fun n => (n : Int))
  | cs => (digitsVal cs).map (fun n => (n : Int))

/-! ### The graph model (`networkx.Graph` is a simple undirected graph) -/

/-- A `networkx.Graph` value: `nodes` is the node list in insertion order
(no duplicates for graphs built by the loaders), `edges` the stored edge
list, one entry per unordered pair present in the graph. -/
structure Graph where
  nodes : List Int
  edges : List (Int × Int)
deriving DecidableEq, Repr

/-- The empty graph `nx.Graph()`. -/
def Graph.empty : Graph := ⟨[], []⟩

/-- Model of `G.add_node(v)`: appends `v` unless already present. -/
def Graph.addNode (G : Graph) (v : Int) : Graph :=
  if v ∈ G.nodes then G else ⟨G.nodes ++ [v], G.edges⟩

/-- Whether the unordered pair `{u,v}` is already stored. -/
def Graph.hasEdge (G : Graph) (u v : Int) : Bool :=
  decide ((u, v) ∈ G.edges ∨ (v, u) ∈ G.edges)

/-- Model of `G.add_edge(u,v)`: adds missing endpoints as nodes, then stores the
unordered pair unless an equal pair is already present (`nx.Graph` is a
simple graph, so a repeated edge is a no-op on the edge set). -/
def Graph.addEdge (G : Graph) (u v : Int) : Graph :=
  if ((G.addNode u).addNode v).hasEdge u v then (G.addNode u).addNode v
  else ⟨((G.addNode u).addNode v).nodes, ((G.addNode u).addNode v).edges ++ [(u, v)]⟩

/-- Model of `G.neighbors(v)`: the other endpoint of every stored pair incident to
`v`; a self-loop contributes `v` itself once. -/
def Graph.neighbors (G : Graph) (v : Int) : List Int :=
  G.edges.filterMap (fun e =>
    if e.1 = v then some e.2 else if e.2 = v then some e.1 else none)

/-- Model of `G.degree(v)` in networkx: number of adjacency entries, a self-loop
counting twice. -/
def Graph.grau (G : Graph) (v : Int) : Nat :=
  (G.neighbors v).length + (if v ∈ G.neighbors v then 1 else 0)

/-- Adjacency: `b` occurs among the neighbors of `a`. -/
def Graph.Adj (G : Graph) (a b : Int) : Prop :=
  b ∈ G.neighbors a

instance (G : Graph) (a b : Int) : Decidable (G.Adj a b) := by
  unfold Graph.Adj; infer_instance

/-- Well-formedness enjoyed by every loader-built graph: the node list has
no duplicates and every stored edge endpoint is a node. -/
def Graph.WF (G : Graph) : Prop :=
  G.nodes.Nodup ∧ ∀ e ∈ G.edges, e.1 ∈ G.nodes ∧ e.2 ∈ G.nodes

instance (G : Graph) : Decidable G.WF := by
  unfold Graph.WF; infer_instance

/-! ### The edge-list loaders -/

/-- The fatal parse failures of the edge-list loaders: a `p` line whose
tokens cannot be consumed as the code requires (IndexError / ValueError /
unpacking error in Python) or an `e` line that does not split into exactly
three integer-parsable tokens. -/
inductive ParseError where
  | malformedP
  | malformedE
deriving DecidableEq, Repr

/-- Model of `range(1, n+1)` added via `add_nodes_from`: appends each of `1..n` not
already present, in ascending order.  Empty for `n ≤ 0`. -/
def Graph.addNodesRange (G : Graph) (n : Int) : Graph :=
  (List.range n.toNat).foldl (fun g (i : Nat) => g.addNode ((i : Int) + 1)) G

/-- The branch body of `carregar_grafo` in `coloracao.py` (the function in
`dom.py` is textually identical) applied to the stripped line `t`: skip `c`
lines, on a `p` line parse the third whitespace token as `N` and add nodes
`1..N`, on an `e` line unpack exactly three tokens and add the edge, ignore
anything else. -/
def carregarLineCol (G : Graph) (t : List Char) : Except ParseError Graph :=
  if startsWithChars strC.data t then Except.ok G
  else if startsWithChars strP.data t then
    match (splitWs t)[2]? with
    | none => Except.error ParseError.malformedP
    | some tok =>
      match pyInt tok with
      | none => Except.error ParseError.malformedP
      | some n => Except.ok (G.addNodesRange n)
  else if startsWithChars strE.data t then
    match splitWs t with
    | [_, us, vs] =>
      match pyInt us, pyInt vs with
      | some u, some v => Except.ok (G.addEdge u v)
      | _, _ => Except.error ParseError.malformedE
    | _ => Except.error ParseError.malformedE
  else Except.ok G

/-- One line of `carregar_grafo` in `coloracao.py` / `dom.py`:
`linha = linha.strip()` then the line dispatch. -/
def carregarStepCol (G : Graph) (linha : String) : Except ParseError Graph :=
  carregarLineCol G (pyStrip linha.data)

/-- Model of `carregar_grafo` of `coloracao.py` / `dom.py` over the file's lines. -/
def carregar_grafo_col (lines : List String) : Except ParseError Graph :=
  lines.foldlM carregarStepCol Graph.empty

/-- The branch body of `carregar_grafo` in `max_cut.py` on the stripped
line: identical to the coloring loader except that the `p` line is unpacked
as exactly four tokens (`_, _, n, _ = linha.split()`), so any other token
count is a fatal unpacking error. -/
def carregarLineMc (G : Graph) (t : List Char) : Except ParseError Graph :=
  if startsWithChars strC.data t then Except.ok G
  else if startsWithChars strP.data t then
    match splitWs t with
    | [_, _, ns, _] =>
      match pyInt ns with
      | none => Except.error ParseError.malformedP
      | some n => Except.ok (G.addNodesRange n)
    | _ => Except.error ParseError.malformedP
  else if startsWithChars strE.data t then
    match splitWs t with
    | [_, us, vs] =>
      match pyInt us, pyInt vs with
      | some u, some v => Except.ok (G.addEdge u v)
      | _, _ => Except.error ParseError.malformedE
    | _ => Except.error ParseError.malformedE
  else Except.ok G

/-- One line of `carregar_grafo` in `max_cut.py`. -/
def carregarStepMc (G : Graph) (linha : String) : Except ParseError Graph :=
  carregarLineMc G (pyStrip linha.data)

/-- Model of `carregar_grafo` of `max_cut.py` over the file's lines. -/
def carregar_grafo_mc (lines : List String) : Except ParseError Graph :=
  lines.foldlM carregarStepMc Graph.empty

/-! ### Stable sorting (Python `sorted` is a stable sort) -/

/-- Insert `x` into `l` before the first element `y` with `le x y`; combined
with `insSort` this yields the stable sort that Python's `sorted` performs
for the total preorder decided by `le`. -/
def insOrd (le : α → α → Bool) (x : α) : List α → List α
  | [] => [x]
  | y :: t => if le x y then x :: y :: t else y :: insOrd le x t

/-- Stable insertion sort with respect to `le`. -/
def insSort (le : α → α → Bool) : List α → List α
  | [] => []
  | x :: l => insOrd le x (insSort le l)

/-- The list is weakly ordered by `le`. -/
def SortedBy (le : α → α → Bool) (l : List α) : Prop :=
  l.Pairwise (fun a b => le a b = true)

/-- Python `sorted` on integers, ascending. -/
def sortAsc (l : List Int) : List Int :=
  insSort (fun a b => decide (a ≤ b)) l

/-- The comparison realised by
`sorted(G.nodes(), key=lambda v: G.degree(v), reverse=True)`:
`a` may precede `b` iff `a`'s degree is at least `b`'s. -/
def degGE (G : Graph) (a b : Int) : Bool :=
  decide (G.grau b ≤ G.grau a)

/-- Step 1 of `welsh_powell`: the vertex ordering by descending degree,
ties keeping the node list's enumeration order (Python's sort is stable and
`reverse=True` does not reorder equal keys). -/
def vertices_ordenados (G : Graph) : List Int :=
  insSort (degGE G) G.nodes

/-- Dictionary update `cor[x] = c`. -/
def updF (f : Int → Nat) (x : Int) (c : Nat) : Int → Nat :=
  fun y => if y = x then c else f y

/-- The inner `for v in nao_coloridos[1:]` loop of `welsh_powell`: give `v`
color `c` unless some (live) neighbor already carries `c`. -/
def wpPass (G : Graph) (c : Nat) : List Int → (Int → Nat) → Int → Nat
  | [], cor => cor
  | v :: rest, cor =>
    wpPass G c rest
      (if (G.neighbors v).any (fun u => cor u == c) then cor else updF cor v c)


/-- The outer `while True` loop of `welsh_powell`: while uncolored vertices
remain (in the fixed ordering), color the first of them unconditionally with
the current color, attempt the rest in order, then move to the next color.
`fuel` bounds the number of passes; since every pass colors at least one
vertex, `fuel = order.length` passes always suffice, so the fuel cutoff
(returning the current map) is never reached from `welsh_powell`. -/
def wpLoop (G : Graph) (order : List Int) : (Int → Nat) → Nat → Nat → Int → Nat
  | cor, _, 0 => cor
  | cor, c, fuel + 1 =>
    match order.filter (fun v => cor v == 0) with
    | [] => cor
    | v0 :: rest => wpLoop G order (wpPass G c rest (updF cor v0 c)) (c + 1) fuel

/-- Model of `welsh_powell(G)`: the returned color dictionary, as the function giving
each vertex its color (`0` is the transient uncolored sentinel, never
returned for a vertex of the graph). -/
def welsh_powell (G : Graph) : Int → Nat :=
  wpLoop G (vertices_ordenados G) (fun _ => 0) 1 (vertices_ordenados G).length

/-- Partial properness: colored vertices never share their color with an
adjacent distinct vertex. -/
def ProperAt (G : Graph) (cor : Int → Nat) : Prop :=
  ∀ a b : Int, G.Adj a b → a ≠ b → cor a ≠ 0 → cor a ≠ cor b

/-! ### Greedy dominating set (`dom.py`) -/

/-- Model of `sum(1 for u in G.neighbors(v) if not dominado[u])`. -/
def vizNaoDom (G : Graph) (dom : Int → Bool) (v : Int) : Nat :=
  (G.neighbors v).countP (fun u => !dom u)

/-- One comparison of the candidate scan of
`conjunto_dominante_aproximado`: replace the tracked best on a strict `>`
of the undominated-neighbor count (the initial best count `-1` means the
first candidate always replaces the empty best). -/
def domScanStep (G : Graph) (dom : Int → Bool)
    (acc : Option (Int × Nat)) (v : Int) : Option (Int × Nat) :=
  match acc with
  | none => some (v, vizNaoDom G dom v)
  | some (b, bq) =>
    if vizNaoDom G dom v > bq then some (v, vizNaoDom G dom v) else some (b, bq)

/-- The candidate scan of `conjunto_dominante_aproximado`: over the
candidates in the order given, track the maximum undominated-neighbor count
with a strict `>`, so the first candidate achieving the maximum wins;
returns the winning candidate. -/
def selectCand (G : Graph) (dom : Int → Bool) (cs : List Int) : Option Int :=
  (cs.foldl (domScanStep G dom) none).map Prod.fst

/-- Marking step `dominado[v] = True` and `dominado[u] = True` for every neighbor `u`. -/
def markDom (G : Graph) (dom : Int → Bool) (v : Int) : Int → Bool :=
  fun u => if u = v ∨ u ∈ G.neighbors v then true else dom u

/-- Model of `precisa_inserir`: `v` or some neighbor of `v` is undominated. -/
def precisaInserir (G : Graph) (dom : Int → Bool) (v : Int) : Bool :=
  !dom v || (G.neighbors v).any (fun u => !dom u)

/-- The `while C:` loop of `conjunto_dominante_aproximado`.  `cs` is the
candidate pool kept as an ascending list: the Python code re-sorts the set
`C` at every scan (`for v in sorted(C)`), and removing the selected vertex
from an ascending list preserves ascending order, so scanning `cs` is
scanning `sorted(C)`.  One candidate is removed per iteration, so
`fuel = |C|` iterations always suffice and the fuel cutoff is unreachable
from `conjunto_dominante_aproximado`. -/
def domLoop (G : Graph) : Nat → List Int → (Int → Bool) → List Int → List Int
  | 0, _, _, S => S
  | fuel + 1, cs, dom, S =>
    match selectCand G dom cs with
    | none => S
    | some v =>
      if precisaInserir G dom v then
        domLoop G fuel (cs.erase v) (markDom G dom v) (v :: S)
      else
        domLoop G fuel (cs.erase v) dom S

/-- Model of `conjunto_dominante_aproximado(G)`: greedy max-new-coverage dominating
set, returned as `sorted(S)`. -/
def conjunto_dominante_aproximado (G : Graph) : List Int :=
  sortAsc (domLoop G G.nodes.length (sortAsc G.nodes) (fun _ => false) [])

/-! ### Sequential greedy Max-Cut (`max_cut.py`) -/

/-- The body of the `for v in sorted(G.nodes())` loop of
`sahni_gonzalez_maxcut`: place `v` on the side with the larger crossing
gain, ties going to the smaller side with `A` preferred on equal sizes. -/
def sgStep (G : Graph) (AB : List Int × List Int) (v : Int) : List Int × List Int :=
  let ganhoA := (G.neighbors v).countP (fun u => decide (u ∈ AB.2))
  let ganhoB := (G.neighbors v).countP (fun u => decide (u ∈ AB.1))
  if ganhoA > ganhoB then (v :: AB.1, AB.2)
  else if ganhoB > ganhoA then (AB.1, v :: AB.2)
  else if AB.1.length ≤ AB.2.length then (v :: AB.1, AB.2)
  else (AB.1, v :: AB.2)

/-- Model of `sahni_gonzalez_maxcut(G)`: the two sets `A` and `B` (as lists in
reverse insertion order; only membership is observable for a Python set). -/
def sahni_gonzalez_maxcut (G : Graph) : List Int × List Int :=
  (sortAsc G.nodes).foldl (sgStep G) ([], [])

/-- Model of `tamanho_corte(G, A, B)`: edges of `G` with one endpoint in each side,
scanning the stored edge list once. -/
def tamanho_corte (G : Graph) (A B : List Int) : Nat :=
  G.edges.countP (fun e =>
    decide ((e.1 ∈ A ∧ e.2 ∈ B) ∨ (e.1 ∈ B ∧ e.2 ∈ A)))

/-! ### Nearest-neighbor TSP (`vizinho_mais_proximo.py`) -/

/-- Digit-string value with the empty string counting as `0` (used for the
two halves of a decimal literal). -/
def digitsNum (cs : List Char) : Nat :=
  cs.foldl (fun acc ch => acc * 10 + (ch.toNat - ('0').toNat)) 0

/-- Python `float(token)` on a plain decimal literal `[digits][.digits]`:
the parsed value as an exact rational (decimal literals are exact here;
the model does not cover exponent notation, which the instances at hand do
not use).  Any other shape raises `ValueError`, modelled as `none`. -/
def decimalVal (cs : List Char) : Option ℚ :=
  let ip := cs.takeWhile (fun ch => ch ≠ '.')
  match cs.dropWhile (fun ch => ch ≠ '.') with
  | [] =>
    if ip ≠ [] ∧ ip.all (fun ch => ch.isDigit) then some ((digitsNum ip : ℚ))
    else none
  | _ :: fp =>
    if (ip ≠ [] ∨ fp ≠ []) ∧ ip.all (fun ch => ch.isDigit) ∧ fp.all (fun ch => ch.isDigit)
    then some ((digitsNum ip : ℚ) + (digitsNum fp : ℚ) / ((10 : ℚ) ^ fp.length))
    else none

/-- Python `float(token)` with an optional sign. -/
def pyFloat : List Char → Option ℚ
  | '-' :: cs => (decimalVal cs).map (fun q => -q)
  | '+' :: cs => decimalVal cs
  | cs => decimalVal cs

/-- The `EOF` marker prefix. -/
def strEOF : String := "EOF"

/-- The `NODE_COORD_SECTION` marker prefix. -/
def strNCS : String := "NODE_COORD_SECTION"

/-- Python dict assignment `coords[idx] = (x, y)` on an insertion-ordered
association list. -/
def coordsInsert : List (Int × ℚ × ℚ) → Int → ℚ × ℚ → List (Int × ℚ × ℚ)
  | [], idx, xy => [(idx, xy.1, xy.2)]
  | (k, x, y) :: rest, idx, xy =>
    if k = idx then (k, xy.1, xy.2) :: rest
    else (k, x, y) :: coordsInsert rest idx xy

/-- The line loop of `ler_tsp`: skip blank lines, stop at an `EOF`-prefixed
line (case-insensitive), toggle coordinate parsing at a
`NODE_COORD_SECTION`-prefixed line, ignore lines before the section, and
inside the section parse the first three tokens as `(id, x, y)`, silently
skipping rows that fail to parse. -/
def lerTspLoop : List String → Bool → List (Int × ℚ × ℚ) → List (Int × ℚ × ℚ)
  | [], _, coords => coords
  | linha :: rest, inSection, coords =>
    let t := pyStrip linha.data
    if t.isEmpty then lerTspLoop rest inSection coords
    else if startsWithUpper strEOF.data t then coords
    else if startsWithUpper strNCS.data t then lerTspLoop rest true coords
    else if !inSection then lerTspLoop rest inSection coords
    else
      match splitWs t with
      | p0 :: p1 :: p2 :: _ =>
        match pyInt p0, pyFloat p1, pyFloat p2 with
        | some idx, some x, some y =>
          lerTspLoop rest inSection (coordsInsert coords idx (x, y))
        | _, _, _ => lerTspLoop rest inSection coords
      | _ => lerTspLoop rest inSection coords

/-- Model of `ler_tsp(path)`: the parsed coordinate dictionary. -/
def ler_tsp (lines : List String) : List (Int × ℚ × ℚ) :=
  lerTspLoop lines false []

/-- The key list of the coordinate dictionary, in insertion order. -/
def coordKeys (coords : List (Int × ℚ × ℚ)) : List Int :=
  coords.map (fun e => e.1)

/-- Python `min(coords.keys())` (the `[]` case is unreachable: the caller
checks the dictionary is non-empty first). -/
def minKey : List (Int × ℚ × ℚ) → Int
  | [] => 0
  | (k, _, _) :: rest => (coordKeys rest).foldl min k

/-- One comparison of the inner candidate scan of
`nearest_neighbor_tour`: replace the tracked best on a strict `<` of the
distance from `current`. -/
def nnScanStep {α : Type} [LinearOrderedAddCommGroup α]
    (dist : Int → Int → α) (current : Int)
    (acc : Option (Int × α)) (v : Int) : Option (Int × α) :=
  match acc with
  | none => some (v, dist current v)
  | some (b, bd) =>
    if dist current v < bd then some (v, dist current v) else some (b, bd)

/-- The inner candidate scan of `nearest_neighbor_tour` (see the doc
comment above `nnScanStep`): Python starts from `best = None,
best_d = inf` and replaces the best on a strict `<`, so the first candidate
always replaces the empty best (every distance is finite) and the first
minimal candidate in scan order wins ties. -/
def selectBest {α : Type} [LinearOrderedAddCommGroup α]
    (dist : Int → Int → α) (current : Int) (cands : List Int) :
    Option (Int × α) :=
  cands.foldl (nnScanStep dist current) none

/-- The `while len(visited) < n` loop of `nearest_neighbor_tour`, returning
the remaining cost (including the closing edge back to `start`) and the
remaining visit sequence (ending in the closing `start`).  `unvisited` is
the scan list of not-yet-visited vertices in their original order, which is
how the Python loop's `for v in nodes: if v in visited: continue` traverses
them.  Each iteration visits one vertex, so `fuel = |unvisited|` iterations
always suffice and the fuel cutoff is unreachable from
`nearest_neighbor_tour`. -/
def nnAux {α : Type} [LinearOrderedAddCommGroup α]
    (dist : Int → Int → α) (start : Int) : Nat → Int → List Int → α × List Int
  | 0, current, _ => (dist current start, [start])
  | fuel + 1, current, unvisited =>
    match selectBest dist current unvisited with
    | none => (dist current start, [start])
    | some (b, bd) =>
      let r := nnAux dist start fuel b (unvisited.erase b)
      (bd + r.1, b :: r.2)

/-- Model of `nearest_neighbor_tour(dist, start)`: total cost and closed visit
sequence, starting and ending at `start`.  `nodes` is `list(dist.keys())`. -/
def nearest_neighbor_tour {α : Type} [LinearOrderedAddCommGroup α]
    (dist : Int → Int → α) (nodes : List Int) (start : Int) :
    α × List Int :=
  let unvisited := nodes.filter (fun v => v ≠ start)
  let r := nnAux dist start unvisited.length start unvisited
  (r.1, start :: r.2)

/-- Sum of the distances between consecutive elements of a sequence. -/
def tourCost {α : Type} [LinearOrderedAddCommGroup α]
    (dist : Int → Int → α) : List Int → α
  | a :: b :: rest => dist a b + tourCost dist (b :: rest)
  | _ => 0

/-- Python `int(x)` on a real value: truncation toward zero. -/
noncomputable def pyTrunc (x : ℝ) : ℤ :=
  if 0 ≤ x then ⌊x⌋ else ⌈x⌉

/-- Model of `euclid_dist(a, b) = math.hypot(a[0]-b[0], a[1]-b[1])`, idealized over
the reals. -/
noncomputable def euclid_dist (a b : ℚ × ℚ) : ℝ :=
  Real.sqrt ((((a.1 - b.1 : ℚ)) : ℝ) ^ 2 + (((a.2 - b.2 : ℚ)) : ℝ) ^ 2)

/-- The entry `dist[i][j]` stored by `construir_matriz_distancias`: `0` on
the diagonal, otherwise the Euclidean distance, passed through
`float(int(d + 0.5))` when `use_round` is set.  (The Python function builds
a dict over the sorted node keys whose `(i,j)` entry is exactly this
value.) -/
noncomputable def construir_matriz_distancias
    (coords : Int → ℚ × ℚ) (use_round : Bool) (i j : Int) : ℝ :=
  if i = j then 0
  else if use_round then
    ((pyTrunc (euclid_dist (coords i) (coords j) + 1 / 2) : ℤ) : ℝ)
  else euclid_dist (coords i) (coords j)

/-- The observable control-flow events of `executar`: building the distance
matrix (step 2 of the code), exiting with status 1 after printing a
diagnostic to stderr, printing the final cost and tour. -/
inductive TraceEv where
  | builtMatrix
  | exitError
  | printedResult
deriving DecidableEq, Repr

/-- The control flow of `executar(args)` as the ordered list of its
observable events: read coordinates (exit 1 if empty), build the distance
matrix, then — only in single-start mode — check the start vertex and exit 1
if it is not a parsed coordinate key; otherwise run the tour(s) and print.
The rounding flag only changes matrix values, never the control flow, so it
is not a parameter here. -/
def executar (lines : List String) (start? : Option Int) (tryAll : Bool) :
    List TraceEv :=
  let coords := ler_tsp lines
  if coords.isEmpty then [TraceEv.exitError]
  else
    TraceEv.builtMatrix ::
      (if tryAll then [TraceEv.printedResult]
       else
         let s := match start? with
           | some k => k
           | none => minKey coords
         if s ∈ coordKeys coords then [TraceEv.printedResult]
         else [TraceEv.exitError])

/-! ### Line predicates characterizing which vertices a line contributes -/

/-- The line, processed as by the `coloracao.py`/`dom.py` loader, is a `p`
line declaring a range that contains `x`. -/
def pDeclaresColT (t : List Char) (x : Int) : Bool :=
  !startsWithChars strC.data t && startsWithChars strP.data t &&
    (match (splitWs t)[2]? with
     | some tok =>
       match pyInt tok with
       | some n => decide (1 ≤ x ∧ x ≤ n)
       | none => false
     | none => false)

/-- The line, processed as by the `max_cut.py` loader, is a `p` line
declaring a range that contains `x`. -/
def pDeclaresMcT (t : List Char) (x : Int) : Bool :=
  !startsWithChars strC.data t && startsWithChars strP.data t &&
    (match splitWs t with
     | [_, _, ns, _] =>
       match pyInt ns with
       | some n => decide (1 ≤ x ∧ x ≤ n)
       | none => false
     | _ => false)

/-- The line is an `e` line one of whose two endpoints is `x`. -/
def eMentionsT (t : List Char) (x : Int) : Bool :=
  !startsWithChars strC.data t && !startsWithChars strP.data t &&
    startsWithChars strE.data t &&
    (match splitWs t with
     | [_, us, vs] =>
       match pyInt us, pyInt vs with
       | some u, some v => decide (x = u ∨ x = v)
       | _, _ => false
     | _ => false)

/-- Predicate `pDeclaresColT` on the stripped line. -/
def pDeclaresCol (linha : String) (x : Int) : Bool :=
  pDeclaresColT (pyStrip linha.data) x

/-- Predicate `pDeclaresMcT` on the stripped line. -/
def pDeclaresMc (linha : String) (x : Int) : Bool :=
  pDeclaresMcT (pyStrip linha.data) x

/-- Predicate `eMentionsT` on the stripped line. -/
def eMentions (linha : String) (x : Int) : Bool :=
  eMentionsT (pyStrip linha.data) x

/-! ### Concrete instances used by the claim theorems -/

/-- The 4-cycle file of the specification's worked examples. -/
def file4 : List String := [r"p edge 4 4", r"e 1 2", r"e 2 3", r"e 3 4", r"e 4 1"]

/-- The 4-cycle graph the loader builds from `file4`. -/
def g4 : Graph := ⟨[1, 2, 3, 4], [(1, 2), (2, 3), (3, 4), (4, 1)]⟩

/-- A file declaring one vertex with a self-loop edge. -/
def fileLoop : List String := [r"p edge 1 1", r"e 1 1"]

/-- The graph the loader builds from `fileLoop`. -/
def gLoop : Graph := ⟨[1], [(1, 1)]⟩

/-- A file with a duplicated edge line. -/
def fileDup : List String := [r"p edge 2 2", r"e 1 2", r"e 1 2"]

/-- The graph the loader builds from `fileDup`: the repeated line is merged. -/
def gDup : Graph := ⟨[1, 2], [(1, 2)]⟩

/-- A file whose edge endpoints `5, 3` lie outside the declared range `{1}`
and therefore enter the node list in file order, `5` before `3`. -/
def fileTie : List String := [r"p edge 1 1", r"e 5 3"]

/-- The graph the loader builds from `fileTie`. -/
def gTie : Graph := ⟨[1, 5, 3], [(5, 3)]⟩

/-- A `p` line carrying one extra trailing token. -/
def filePExtra : List String := [r"p edge 2 3 x"]

/-- A file with out-of-range edge endpoints `7, 9`. -/
def fileOut : List String := [r"p edge 1 2", r"e 7 9"]

/-- The graph the loader builds from `fileOut`. -/
def gOut : Graph := ⟨[1, 7, 9], [(7, 9)]⟩

/-- A two-point TSPLIB file with coordinate keys `1` and `2`. -/
def fileTsp : List String := [r"NODE_COORD_SECTION", r"1 0 0", r"2 3 4", r"EOF"]

/-- Coordinates placing vertex `1` at the origin and every other vertex at
`(3,4)` (distance `5` from the origin). -/
def coordsW8 : Int → ℚ × ℚ := fun i => if i = 1 then (0, 0) else (3, 4)

/-- The x-coordinates of the specification's TSP example: `1:(0,0)`,
`2:(10,0)`, `3:(1,0)` (all on the x-axis). -/
def xsW4 : Int → Int := fun i => if i = 1 then 0 else if i = 2 then 10 else 1

/-- The distance matrix of the specification's TSP example (collinear
points with integer coordinates, so the Euclidean distance is the absolute
coordinate difference, an integer). -/
def distW4 : Int → Int → Int := fun i j => |xsW4 i - xsW4 j|

/-- Two stored edge entries denote the same unordered pair. -/
def sameEdge (e f : Int × Int) : Prop :=
  (e.1 = f.1 ∧ e.2 = f.2) ∨ (e.1 = f.2 ∧ e.2 = f.1)

instance (e f : Int × Int) : Decidable (sameEdge e f) := by
  unfold sameEdge; infer_instance

/-- A `p` line with an extra fifth token. -/
def linePExtra : String := "p edge 2 3 x"

/-- A standard four-token `p` line. -/
def lineP4 : String := "p edge 7 3"

/-! ## Theorems -/

/-! ### Stable-sort lemmas -/

theorem insOrd_perm (le : α → α → Bool) (x : α) (l : List α) :
    insOrd le x l ~ x :: l := by
  induction l with
  | nil => simp [insOrd]
  | cons y t ih =>
    simp only [insOrd]
    split
    · exact List.Perm.refl _
    · exact (ih.cons y).trans (List.Perm.swap x y t)

theorem insSort_perm (le : α → α → Bool) (l : List α) : insSort le l ~ l := by
  induction l with
  | nil => simp [insSort]
  | cons x l ih => exact (insOrd_perm le x (insSort le l)).trans (ih.cons x)

theorem insOrd_sorted (le : α → α → Bool)
    (total : ∀ a b, le a b = true ∨ le b a = true)
    (htrans : ∀ a b c, le a b = true → le b c = true → le a c = true)
    (x : α) (l : List α) (h : SortedBy le l) : SortedBy le (insOrd le x l) := by
  induction l with
  | nil => simp [insOrd, SortedBy]
  | cons y t ih =>
    rw [SortedBy, List.pairwise_cons] at h
    simp only [insOrd]
    split
    · rename_i hxy
      rw [SortedBy, List.pairwise_cons]
      refine ⟨?_, (List.pairwise_cons).2 h⟩
      intro b hb
      rcases List.mem_cons.1 hb with rfl | hb
      · exact hxy
      · exact htrans x y b hxy (h.1 b hb)
    · rename_i hxy
      rw [SortedBy, List.pairwise_cons]
      refine ⟨?_, ih h.2⟩
      intro b hb
      have hb' := (insOrd_perm le x t).mem_iff.1 hb
      rcases List.mem_cons.1 hb' with rfl | hb'
      · rcases total y b with hyb | hby
        · exact hyb
        · exact absurd hby hxy
      · exact h.1 b hb'

theorem insSort_sorted (le : α → α → Bool)
    (total : ∀ a b, le a b = true ∨ le b a = true)
    (htrans : ∀ a b c, le a b = true → le b c = true → le a c = true)
    (l : List α) : SortedBy le (insSort le l) := by
  induction l with
  | nil => simp [insSort, SortedBy]
  | cons x l ih => exact insOrd_sorted le total htrans x _ ih

theorem sublist_insOrd (le : α → α → Bool) (x : α) :
    ∀ {t s : List α}, s <+ t → s <+ insOrd le x t := by
  intro t
  induction t with
  | nil =>
    intro s h
    cases h
    exact List.nil_sublist _
  | cons y t ih =>
    intro s h
    simp only [insOrd]
    split
    · exact h.trans (List.sublist_cons_self x (y :: t))
    · cases h with
      | cons _ h' => exact (ih h').cons y
      | cons₂ _ h' => exact (ih h').cons₂ y

theorem pair_sublist_insOrd (le : α → α → Bool) (x b : α) :
    ∀ {t : List α}, b ∈ t → le x b = true → [x, b] <+ insOrd le x t := by
  intro t
  induction t with
  | nil => intro hb; cases hb
  | cons y t ih =>
    intro hb hxb
    simp only [insOrd]
    split
    · exact (List.singleton_sublist.2 hb).cons₂ x
    · rename_i hxy
      rcases List.mem_cons.1 hb with rfl | hb
      · exact absurd hxb hxy
      · exact (ih hb hxb).cons y

theorem insSort_stable (le : α → α → Bool) (a b : α) :
    ∀ {l : List α}, [a, b] <+ l → le a b = true → [a, b] <+ insSort le l := by
  intro l
  induction l with
  | nil => intro h; cases h
  | cons x l ih =>
    intro h hab
    simp only [insSort]
    cases h with
    | cons _ h' => exact sublist_insOrd le x (ih h' hab)
    | cons₂ _ h' =>
      have hb : b ∈ insSort le l :=
        (insSort_perm le l).mem_iff.2 (List.singleton_sublist.1 h')
      exact pair_sublist_insOrd le a b hb hab

/-! ### Welsh–Powell greedy coloring (`coloracao.py`) -/


/-! ### Graph lemmas -/

theorem Graph.mem_neighbors_iff (G : Graph) (a b : Int) :
    b ∈ G.neighbors a ↔
      ∃ e ∈ G.edges, (e.1 = a ∧ e.2 = b) ∨ (e.1 ≠ a ∧ e.2 = a ∧ e.1 = b) := by
  unfold Graph.neighbors
  rw [List.mem_filterMap]
  constructor
  · rintro ⟨e, he, hfe⟩
    refine ⟨e, he, ?_⟩
    by_cases h1 : e.1 = a
    · rw [if_pos h1] at hfe
      exact Or.inl ⟨h1, Option.some_inj.1 hfe⟩
    · rw [if_neg h1] at hfe
      by_cases h2 : e.2 = a
      · rw [if_pos h2] at hfe
        exact Or.inr ⟨h1, h2, Option.some_inj.1 hfe⟩
      · rw [if_neg h2] at hfe
        cases hfe
  · rintro ⟨e, he, h | h⟩
    · exact ⟨e, he, by rw [if_pos h.1, h.2]⟩
    · exact ⟨e, he, by rw [if_neg h.1, if_pos h.2.1, h.2.2]⟩

theorem Graph.adj_symm (G : Graph) {a b : Int} (h : G.Adj a b) : G.Adj b a := by
  unfold Graph.Adj at h ⊢
  rw [Graph.mem_neighbors_iff] at h ⊢
  obtain ⟨e, he, hcase⟩ := h
  exact ⟨e, he, by omega⟩

theorem Graph.adj_of_mem (G : Graph) {e : Int × Int} (he : e ∈ G.edges) :
    G.Adj e.1 e.2 := by
  unfold Graph.Adj
  rw [Graph.mem_neighbors_iff]
  exact ⟨e, he, Or.inl ⟨rfl, rfl⟩⟩

/-! ### Welsh–Powell correctness -/

theorem vertices_ordenados_perm (G : Graph) : vertices_ordenados G ~ G.nodes :=
  insSort_perm (degGE G) G.nodes

theorem wpPass_eq_or (G : Graph) (c : Nat) :
    ∀ (l : List Int) (cor : Int → Nat) (x : Int),
      wpPass G c l cor x = cor x ∨ wpPass G c l cor x = c := by
  intro l
  induction l with
  | nil => intro cor x; exact Or.inl rfl
  | cons v rest ih =>
    intro cor x
    simp only [wpPass]
    rcases ih (if (G.neighbors v).any (fun u => cor u == c) then cor
        else updF cor v c) x with h1 | h1
    · rw [h1]
      split
      · exact Or.inl rfl
      · simp only [updF]
        split
        · exact Or.inr rfl
        · exact Or.inl rfl
    · exact Or.inr h1

theorem wp_measure_lt (G : Graph) (order : List Int) (cor : Int → Nat)
    (c : Nat) (hc : 0 < c) (v0 : Int) (rest : List Int)
    (h : order.filter (fun v => cor v == 0) = v0 :: rest) :
    (order.filter (fun v => wpPass G c rest (updF cor v0 c) v == 0)).length
      < (order.filter (fun v => cor v == 0)).length := by
  have hc0 : c ≠ 0 := Nat.pos_iff_ne_zero.1 hc
  have himp : ∀ x : Int,
      (wpPass G c rest (updF cor v0 c) x == 0) = true → (cor x == 0) = true := by
    intro x hx
    rw [beq_iff_eq] at hx ⊢
    rcases wpPass_eq_or G c rest (updF cor v0 c) x with h1 | h1
    · rw [h1] at hx
      simp only [updF] at hx
      by_cases hxv : x = v0
      · rw [if_pos hxv] at hx; exact absurd hx hc0
      · rwa [if_neg hxv] at hx
    · rw [h1] at hx; exact absurd hx hc0
  have hsub := List.monotone_filter_right order himp
  have hv0old : v0 ∈ order.filter (fun v => cor v == 0) := by
    rw [h]; exact List.mem_cons_self v0 rest
  have hv0val : wpPass G c rest (updF cor v0 c) v0 = c := by
    rcases wpPass_eq_or G c rest (updF cor v0 c) v0 with h1 | h1
    · rw [h1]; simp [updF]
    · exact h1
  have hv0new : v0 ∉ order.filter (fun v => wpPass G c rest (updF cor v0 c) v == 0) := by
    intro hmem
    have := (List.mem_filter.1 hmem).2
    rw [beq_iff_eq, hv0val] at this
    exact hc0 this
  refine Nat.lt_of_le_of_ne hsub.length_le (fun heq => ?_)
  rw [hsub.eq_of_length heq] at hv0new
  exact hv0new hv0old

theorem wpPass_le (G : Graph) (c : Nat) :
    ∀ (l : List Int) (cor : Int → Nat), (∀ x, cor x ≤ c) →
      ∀ x, wpPass G c l cor x ≤ c := by
  intro l
  induction l with
  | nil => intro cor h x; exact h x
  | cons v rest ih =>
    intro cor h x
    simp only [wpPass]
    apply ih
    intro y
    split
    · exact h y
    · simp only [updF]
      split
      · exact le_refl c
      · exact h y

theorem updF_proper (G : Graph) (cor : Int → Nat) (c : Nat) (v0 : Int)
    (hlt : ∀ x, cor x < c) (hp : ProperAt G cor) : ProperAt G (updF cor v0 c) := by
  intro a b hadj hne ha0
  simp only [updF] at ha0 ⊢
  by_cases hav : a = v0
  · rw [if_pos hav]
    by_cases hbv : b = v0
    · exact absurd (hav.trans hbv.symm) hne
    · rw [if_neg hbv]
      exact fun hcb => absurd hcb.symm (Nat.ne_of_lt (hlt b))
  · rw [if_neg hav] at ha0 ⊢
    by_cases hbv : b = v0
    · rw [if_pos hbv]
      exact Nat.ne_of_lt (hlt a)
    · rw [if_neg hbv]
      exact hp a b hadj hne ha0

theorem wpPass_proper (G : Graph) (c : Nat) :
    ∀ (l : List Int) (cor : Int → Nat), ProperAt G cor →
      ProperAt G (wpPass G c l cor) := by
  intro l
  induction l with
  | nil => intro cor hp; exact hp
  | cons v rest ih =>
    intro cor hp
    simp only [wpPass]
    apply ih
    split
    · exact hp
    · rename_i hconf
      have hnoc : ∀ u ∈ G.neighbors v, cor u ≠ c := by
        intro u hu
        have := List.any_eq_false.1 (Bool.not_eq_true _ ▸ hconf) u hu
        exact fun hc => this (by rw [hc, beq_self_eq_true])
      intro a b hadj hne ha0
      simp only [updF] at ha0 ⊢
      by_cases hav : a = v
      · rw [if_pos hav]
        by_cases hbv : b = v
        · exact absurd (hav.trans hbv.symm) hne
        · rw [if_neg hbv]
          have hb : b ∈ G.neighbors v := hav ▸ hadj
          exact fun hcb => (hnoc b hb) hcb.symm
      · rw [if_neg hav] at ha0 ⊢
        by_cases hbv : b = v
        · rw [if_pos hbv]
          have ha : a ∈ G.neighbors v := by
            have := G.adj_symm (hbv ▸ hadj)
            exact this
          exact hnoc a ha
        · rw [if_neg hbv]
          exact hp a b hadj hne ha0

theorem wpLoop_proper (G : Graph) (order : List Int) :
    ∀ (fuel : Nat) (cor : Int → Nat) (c : Nat), c ≠ 0 →
      (order.filter (fun v => cor v == 0)).length ≤ fuel →
      (∀ x, cor x < c) → ProperAt G cor →
      ProperAt G (wpLoop G order cor c fuel) ∧
        ∀ v ∈ order, wpLoop G order cor c fuel v ≠ 0 := by
  intro fuel
  induction fuel with
  | zero =>
    intro cor c hc hlen hlt hp
    have hfe : order.filter (fun v => cor v == 0) = [] :=
      List.length_eq_zero.1 (Nat.le_zero.1 hlen)
    simp only [wpLoop]
    refine ⟨hp, ?_⟩
    intro v hv h0
    have hmem : v ∈ order.filter (fun v => cor v == 0) :=
      List.mem_filter.2 ⟨hv, by rw [h0]; exact beq_self_eq_true 0⟩
    rw [hfe] at hmem
    cases hmem
  | succ fuel ih =>
    intro cor c hc hlen hlt hp
    simp only [wpLoop]
    cases hfe : order.filter (fun v => cor v == 0) with
    | nil =>
      refine ⟨hp, ?_⟩
      intro v hv h0
      have h0' : cor v = 0 := h0
      have hmem : v ∈ order.filter (fun v => cor v == 0) :=
        List.mem_filter.2 ⟨hv, by rw [h0']; exact beq_self_eq_true 0⟩
      rw [hfe] at hmem
      cases hmem
    | cons v0 rest =>
      have hup_le : ∀ x, updF cor v0 c x ≤ c := by
        intro x
        simp only [updF]
        split
        · exact le_refl c
        · exact Nat.le_of_lt (hlt x)
      have hlt2 : ∀ x, wpPass G c rest (updF cor v0 c) x < c + 1 :=
        fun x => Nat.lt_succ_of_le (wpPass_le G c rest _ hup_le x)
      have hp2 : ProperAt G (wpPass G c rest (updF cor v0 c)) :=
        wpPass_proper G c rest _ (updF_proper G cor c v0 hlt hp)
      have hmeas := wp_measure_lt G order cor c (Nat.pos_of_ne_zero hc) v0 rest hfe
      have hlen2 :
          (order.filter (fun v => wpPass G c rest (updF cor v0 c) v == 0)).length ≤ fuel := by
        omega
      exact ih _ (c + 1) (Nat.succ_ne_zero c) hlen2 hlt2 hp2

theorem welsh_powell_proper (G : Graph) :
    ProperAt G (welsh_powell G) ∧ ∀ v ∈ G.nodes, welsh_powell G v ≠ 0 := by
  unfold welsh_powell
  have h := wpLoop_proper G (vertices_ordenados G) (vertices_ordenados G).length
    (fun _ => 0) 1 Nat.one_ne_zero
    (List.length_filter_le _ _)
    (fun _ => Nat.one_pos)
    (fun a b _ _ h0 => absurd rfl h0)
  refine ⟨h.1, ?_⟩
  intro v hv
  exact h.2 v ((vertices_ordenados_perm G).mem_iff.2 hv)

/-! ### Claim C1 -/

/-- Claim C1 as stated is false: the loader accepts self-loops, and on the
file declaring the single vertex `1` with the self-loop edge `(1,1)` the
Welsh–Powell coloring trivially gives the edge's two (equal) endpoints the
same color, so not every edge of every input graph satisfies
`color[u] ≠ color[v]`. -/
theorem C1_counterexample :
    ¬ ∀ (lines : List String) (G : Graph), carregar_grafo_col lines = Except.ok G →
        ∀ e ∈ G.edges, welsh_powell G e.1 ≠ welsh_powell G e.2 := by
  intro h
  exact h fileLoop gLoop (by decide) (1, 1) (by decide) rfl

/-- Claim C1 (amended): for every well-formed input graph, the coloring
returned by `welsh_powell` is proper on every edge with distinct endpoints
(`color[u] ≠ color[v]` whenever `u ≠ v`), and every vertex receives a
positive color.  The restriction to distinct endpoints is forced by the
counterexample: on a self-loop `(v,v)` no coloring can separate the two
endpoints. -/
theorem C1_coloring_proper (G : Graph) (hWF : G.WF) :
    (∀ e ∈ G.edges, e.1 ≠ e.2 → welsh_powell G e.1 ≠ welsh_powell G e.2) ∧
      ∀ v ∈ G.nodes, 0 < welsh_powell G v := by
  obtain ⟨hprop, htot⟩ := welsh_powell_proper G
  constructor
  · intro e he hne
    exact hprop e.1 e.2 (G.adj_of_mem he) hne (htot e.1 (hWF.2 e he).1)
  · intro v hv
    exact Nat.pos_of_ne_zero (htot v hv)

/-- Witness for C1 on the specification's 4-cycle example. -/
theorem C1_coloring_proper_witness :
    welsh_powell g4 1 ≠ welsh_powell g4 2 ∧ 0 < welsh_powell g4 3 :=
  ⟨(C1_coloring_proper g4 (by decide)).1 (1, 2) (by decide) (by decide),
   (C1_coloring_proper g4 (by decide)).2 3 (by decide)⟩

/-! ### Claim C6 -/

/-- Claim C6 as stated is false: on the file whose edge `e 5 3` enlarges
the declared vertex set `{1}`, the node enumeration order is `[1, 5, 3]`,
and the coloring engine's ordering is `[5, 3, 1]` — vertices `5` and `3`
have equal degree yet `5` precedes `3`, so ties are broken by enumeration
order, not by ascending vertex id (which would give `[3, 5, 1]`). -/
theorem C6_counterexample :
    carregar_grafo_col fileTie = Except.ok gTie ∧
      gTie.grau 5 = gTie.grau 3 ∧
      vertices_ordenados gTie = [5, 3, 1] ∧
      vertices_ordenados gTie ≠ [3, 5, 1] := by
  exact ⟨by decide, by decide, by decide, by decide⟩

/-- Claim C6 (amended): the ordering used by the coloring engine is a
permutation of the node list sorted by descending degree, with ties broken
by the stable-sort property, i.e. preserving the node list's enumeration
order (which is ascending vertex id only when every edge endpoint lies in
the declared range); and the coloring is deterministic: graphs with the
same node list and edge list receive the same coloring. -/
theorem C6_ordering (G : Graph) :
    (vertices_ordenados G ~ G.nodes) ∧
      (vertices_ordenados G).Pairwise (fun a b => G.grau b ≤ G.grau a) ∧
      (∀ a b : Int, [a, b] <+ G.nodes → G.grau b ≤ G.grau a →
        [a, b] <+ vertices_ordenados G) ∧
      ∀ H : Graph, G.nodes = H.nodes → G.edges = H.edges →
        welsh_powell G = welsh_powell H := by
  refine ⟨vertices_ordenados_perm G, ?_, ?_, ?_⟩
  · have h := insSort_sorted (degGE G)
      (fun a b => by
        unfold degGE
        rcases Nat.le_total (G.grau b) (G.grau a) with h | h
        · exact Or.inl (decide_eq_true h)
        · exact Or.inr (decide_eq_true h))
      (fun a b cc hab hbc => by
        unfold degGE at hab hbc ⊢
        exact decide_eq_true (le_trans (of_decide_eq_true hbc) (of_decide_eq_true hab)))
      G.nodes
    exact h.imp (fun hab => of_decide_eq_true hab)
  · intro a b hsub hle
    exact insSort_stable (degGE G) a b hsub (decide_eq_true hle)
  · intro H h1 h2
    have : G = H := by
      cases G
      cases H
      simp only at h1 h2
      rw [h1, h2]
    rw [this]

/-- Witness for C6 on the specification's 4-cycle example. -/
theorem C6_ordering_witness :
    vertices_ordenados g4 ~ g4.nodes ∧ [1, 2] <+ vertices_ordenados g4 :=
  ⟨(C6_ordering g4).1, (C6_ordering g4).2.2.1 1 2 (by decide) (by decide)⟩

/-! ### Loader lemmas -/

theorem Graph.addNode_mem (G : Graph) (v x : Int) :
    x ∈ (G.addNode v).nodes ↔ x ∈ G.nodes ∨ x = v := by
  unfold Graph.addNode
  split
  · rename_i hv
    constructor
    · exact fun h => Or.inl h
    · rintro (h | rfl)
      · exact h
      · exact hv
  · simp [List.mem_append]

theorem Graph.addNode_of_mem (G : Graph) (v : Int) (h : v ∈ G.nodes) :
    G.addNode v = G := by
  unfold Graph.addNode
  rw [if_pos h]

theorem Graph.addNode_edges (G : Graph) (v : Int) : (G.addNode v).edges = G.edges := by
  unfold Graph.addNode
  split <;> rfl

theorem Graph.addNode_nodup (G : Graph) (v : Int) (h : G.nodes.Nodup) :
    (G.addNode v).nodes.Nodup := by
  unfold Graph.addNode
  split
  · exact h
  · rename_i hv
    rw [List.nodup_append]
    exact ⟨h, List.nodup_singleton v, fun a ha hav => hv (by
      rw [List.mem_singleton] at hav
      rwa [hav] at ha)⟩

theorem Graph.addNode_hasEdge (G : Graph) (w u v : Int) :
    (G.addNode w).hasEdge u v = G.hasEdge u v := by
  unfold Graph.hasEdge
  rw [Graph.addNode_edges]

theorem Graph.addEdge_nodes_mem (G : Graph) (u v x : Int) :
    x ∈ (G.addEdge u v).nodes ↔ x ∈ G.nodes ∨ x = u ∨ x = v := by
  unfold Graph.addEdge
  split <;> simp [Graph.addNode_mem, or_assoc]

theorem Graph.addEdge_nodup (G : Graph) (u v : Int) (h : G.nodes.Nodup) :
    (G.addEdge u v).nodes.Nodup := by
  unfold Graph.addEdge
  split <;> exact (G.addNode u).addNode_nodup v (G.addNode_nodup u h)

theorem Graph.addEdge_edges (G : Graph) (u v : Int) :
    (G.addEdge u v).edges =
      if G.hasEdge u v then G.edges else G.edges ++ [(u, v)] := by
  unfold Graph.addEdge
  simp only [Graph.addNode_hasEdge]
  split <;> simp [Graph.addNode_edges]

theorem foldl_addNode_mem (L : List Nat) :
    ∀ (G : Graph) (x : Int),
      x ∈ (L.foldl (fun g i => g.addNode ((i : Int) + 1)) G).nodes ↔
        x ∈ G.nodes ∨ ∃ i ∈ L, x = (i : Int) + 1 := by
  induction L with
  | nil => intro G x; simp
  | cons a L ih =>
    intro G x
    rw [List.foldl_cons, ih, Graph.addNode_mem]
    simp only [List.mem_cons]
    constructor
    · rintro ((h | rfl) | ⟨i, hi, rfl⟩)
      · exact Or.inl h
      · exact Or.inr ⟨a, Or.inl rfl, rfl⟩
      · exact Or.inr ⟨i, Or.inr hi, rfl⟩
    · rintro (h | ⟨i, hi | hi, rfl⟩)
      · exact Or.inl (Or.inl h)
      · rw [hi]; exact Or.inl (Or.inr rfl)
      · exact Or.inr ⟨i, hi, rfl⟩

theorem foldl_addNode_edges (L : List Nat) :
    ∀ G : Graph, (L.foldl (fun g i => g.addNode ((i : Int) + 1)) G).edges = G.edges := by
  induction L with
  | nil => intro G; rfl
  | cons a L ih => intro G; rw [List.foldl_cons, ih, Graph.addNode_edges]

theorem foldl_addNode_nodup (L : List Nat) :
    ∀ G : Graph, G.nodes.Nodup →
      (L.foldl (fun g i => g.addNode ((i : Int) + 1)) G).nodes.Nodup := by
  induction L with
  | nil => intro G h; exact h
  | cons a L ih => intro G h; rw [List.foldl_cons]; exact ih _ (G.addNode_nodup _ h)

theorem Graph.addNodesRange_mem (G : Graph) (n : Int) (x : Int) :
    x ∈ (G.addNodesRange n).nodes ↔ x ∈ G.nodes ∨ (1 ≤ x ∧ x ≤ n) := by
  unfold Graph.addNodesRange
  rw [foldl_addNode_mem]
  simp only [List.mem_range]
  constructor
  · rintro (h | ⟨i, hi, rfl⟩)
    · exact Or.inl h
    · exact Or.inr (by omega)
  · rintro (h | ⟨h1, h2⟩)
    · exact Or.inl h
    · exact Or.inr ⟨(x - 1).toNat, by omega, by omega⟩

theorem Graph.addNodesRange_edges (G : Graph) (n : Int) :
    (G.addNodesRange n).edges = G.edges :=
  foldl_addNode_edges _ G

theorem Graph.addNodesRange_nodup (G : Graph) (n : Int) (h : G.nodes.Nodup) :
    (G.addNodesRange n).nodes.Nodup :=
  foldl_addNode_nodup _ G h

theorem carregar_col_invariant (P : Graph → Prop)
    (hstep : ∀ G linha G', carregarStepCol G linha = Except.ok G' → P G → P G') :
    ∀ (lines : List String) (G0 G : Graph),
      lines.foldlM carregarStepCol G0 = Except.ok G → P G0 → P G := by
  intro lines
  induction lines with
  | nil =>
    intro G0 G h hP
    simp only [List.foldlM_nil] at h
    cases h
    exact hP
  | cons l ls ih =>
    intro G0 G h hP
    rw [List.foldlM_cons] at h
    cases hstep0 : carregarStepCol G0 l with
    | error e =>
      rw [hstep0] at h
      cases h
    | ok G1 =>
      rw [hstep0] at h
      exact ih G1 G h (hstep G0 l G1 hstep0 hP)

theorem carregar_mc_invariant (P : Graph → Prop)
    (hstep : ∀ G linha G', carregarStepMc G linha = Except.ok G' → P G → P G') :
    ∀ (lines : List String) (G0 G : Graph),
      lines.foldlM carregarStepMc G0 = Except.ok G → P G0 → P G := by
  intro lines
  induction lines with
  | nil =>
    intro G0 G h hP
    simp only [List.foldlM_nil] at h
    cases h
    exact hP
  | cons l ls ih =>
    intro G0 G h hP
    rw [List.foldlM_cons] at h
    cases hstep0 : carregarStepMc G0 l with
    | error e =>
      rw [hstep0] at h
      cases h
    | ok G1 =>
      rw [hstep0] at h
      exact ih G1 G h (hstep G0 l G1 hstep0 hP)

theorem carregarLineCol_wf (G : Graph) (t : List Char) (G' : Graph)
    (h : carregarLineCol G t = Except.ok G') (hWF : G.WF) : G'.WF := by
  unfold carregarLineCol at h
  split at h
  · cases h; exact hWF
  · split at h
    · split at h
      · cases h
      · split at h
        · cases h
        · rename_i n _
          cases h
          refine ⟨G.addNodesRange_nodup n hWF.1, ?_⟩
          intro e he
          rw [Graph.addNodesRange_edges] at he
          have := hWF.2 e he
          rw [Graph.addNodesRange_mem, Graph.addNodesRange_mem]
          exact ⟨Or.inl this.1, Or.inl this.2⟩
    · split at h
      · split at h
        · split at h
          · rename_i u v _ _
            cases h
            refine ⟨G.addEdge_nodup u v hWF.1, ?_⟩
            intro e he
            rw [Graph.addEdge_edges] at he
            rw [Graph.addEdge_nodes_mem, Graph.addEdge_nodes_mem]
            split at he
            · have := hWF.2 e he
              exact ⟨Or.inl this.1, Or.inl this.2⟩
            · rcases List.mem_append.1 he with he' | he'
              · have := hWF.2 e he'
                exact ⟨Or.inl this.1, Or.inl this.2⟩
              · rw [List.mem_singleton] at he'
                rw [he']
                exact ⟨Or.inr (Or.inl rfl), Or.inr (Or.inr rfl)⟩
          · cases h
        · cases h
      · cases h; exact hWF

theorem carregarLineMc_wf (G : Graph) (t : List Char) (G' : Graph)
    (h : carregarLineMc G t = Except.ok G') (hWF : G.WF) : G'.WF := by
  unfold carregarLineMc at h
  split at h
  · cases h; exact hWF
  · split at h
    · split at h
      · split at h
        · cases h
        · rename_i n _
          cases h
          refine ⟨G.addNodesRange_nodup n hWF.1, ?_⟩
          intro e he
          rw [Graph.addNodesRange_edges] at he
          have := hWF.2 e he
          rw [Graph.addNodesRange_mem, Graph.addNodesRange_mem]
          exact ⟨Or.inl this.1, Or.inl this.2⟩
      · cases h
    · split at h
      · split at h
        · split at h
          · rename_i u v _ _
            cases h
            refine ⟨G.addEdge_nodup u v hWF.1, ?_⟩
            intro e he
            rw [Graph.addEdge_edges] at he
            rw [Graph.addEdge_nodes_mem, Graph.addEdge_nodes_mem]
            split at he
            · have := hWF.2 e he
              exact ⟨Or.inl this.1, Or.inl this.2⟩
            · rcases List.mem_append.1 he with he' | he'
              · have := hWF.2 e he'
                exact ⟨Or.inl this.1, Or.inl this.2⟩
              · rw [List.mem_singleton] at he'
                rw [he']
                exact ⟨Or.inr (Or.inl rfl), Or.inr (Or.inr rfl)⟩
          · cases h
        · cases h
      · cases h; exact hWF

theorem carregar_grafo_col_wf (lines : List String) (G : Graph)
    (h : carregar_grafo_col lines = Except.ok G) : G.WF :=
  carregar_col_invariant Graph.WF
    (fun G linha G' h hWF => carregarLineCol_wf G (pyStrip linha.data) G' h hWF)
    lines Graph.empty G h
    ⟨List.nodup_nil, fun e he => absurd he (List.not_mem_nil e)⟩

theorem carregar_grafo_mc_wf (lines : List String) (G : Graph)
    (h : carregar_grafo_mc lines = Except.ok G) : G.WF :=
  carregar_mc_invariant Graph.WF
    (fun G linha G' h hWF => carregarLineMc_wf G (pyStrip linha.data) G' h hWF)
    lines Graph.empty G h
    ⟨List.nodup_nil, fun e he => absurd he (List.not_mem_nil e)⟩

theorem carregarLineCol_dedup (G : Graph) (t : List Char) (G' : Graph)
    (h : carregarLineCol G t = Except.ok G')
    (hd : G.edges.Pairwise (fun e f => ¬ sameEdge e f)) :
    G'.edges.Pairwise (fun e f => ¬ sameEdge e f) := by
  unfold carregarLineCol at h
  split at h
  · cases h; exact hd
  · split at h
    · split at h
      · cases h
      · split at h
        · cases h
        · cases h
          rw [Graph.addNodesRange_edges]
          exact hd
    · split at h
      · split at h
        · split at h
          · rename_i u v _ _
            cases h
            rw [Graph.addEdge_edges]
            split
            · exact hd
            · rename_i hne
              rw [List.pairwise_append]
              refine ⟨hd, List.pairwise_singleton _ _, ?_⟩
              intro a ha b hb hsame
              rw [List.mem_singleton] at hb
              subst hb
              apply hne
              unfold Graph.hasEdge
              rw [decide_eq_true_iff]
              rcases hsame with ⟨h1, h2⟩ | ⟨h1, h2⟩
              · exact Or.inl (by rwa [show a = (u, v) from Prod.ext h1 h2] at ha)
              · exact Or.inr (by rwa [show a = (v, u) from Prod.ext h1 h2] at ha)
          · cases h
        · cases h
      · cases h; exact hd

theorem carregarLineMc_dedup (G : Graph) (t : List Char) (G' : Graph)
    (h : carregarLineMc G t = Except.ok G')
    (hd : G.edges.Pairwise (fun e f => ¬ sameEdge e f)) :
    G'.edges.Pairwise (fun e f => ¬ sameEdge e f) := by
  unfold carregarLineMc at h
  split at h
  · cases h; exact hd
  · split at h
    · split at h
      · split at h
        · cases h
        · cases h
          rw [Graph.addNodesRange_edges]
          exact hd
      · cases h
    · split at h
      · split at h
        · split at h
          · rename_i u v _ _
            cases h
            rw [Graph.addEdge_edges]
            split
            · exact hd
            · rename_i hne
              rw [List.pairwise_append]
              refine ⟨hd, List.pairwise_singleton _ _, ?_⟩
              intro a ha b hb hsame
              rw [List.mem_singleton] at hb
              subst hb
              apply hne
              unfold Graph.hasEdge
              rw [decide_eq_true_iff]
              rcases hsame with ⟨h1, h2⟩ | ⟨h1, h2⟩
              · exact Or.inl (by rwa [show a = (u, v) from Prod.ext h1 h2] at ha)
              · exact Or.inr (by rwa [show a = (v, u) from Prod.ext h1 h2] at ha)
          · cases h
        · cases h
      · cases h; exact hd

/-! ### Claim C3 -/

/-- Claim C3 as stated is false: on the file with the duplicated line
`e 1 2`, the loader (a `networkx.Graph`, i.e. a simple graph) merges the
repetition — the stored edge list has one member, not two — and the max-cut
crossing-edge scan counts the edge once, not once per occurrence. -/
theorem C3_counterexample :
    carregar_grafo_mc fileDup = Except.ok gDup ∧
      gDup.edges.length ≠ 2 ∧ tamanho_corte gDup [1] [2] ≠ 2 ∧
      gDup.edges.length = 1 ∧ tamanho_corte gDup [1] [2] = 1 :=
  ⟨by decide, by decide, by decide, by decide, by decide⟩

/-- Claim C3 (amended): the loaders accept duplicate edge lines and
self-loop lines without error, but `networkx.Graph` deduplicates: adding an
edge already present (in either orientation, with its endpoints present)
leaves the graph unchanged, and every loaded graph's stored edge list
contains each unordered pair at most once, so a downstream scan of the edge
set (such as the max-cut crossing count) sees each distinct edge exactly
once. -/
theorem C3_dedup :
    (∀ (G : Graph) (u v : Int), u ∈ G.nodes → v ∈ G.nodes →
        G.hasEdge u v = true → G.addEdge u v = G) ∧
      (∀ (lines : List String) (G : Graph), carregar_grafo_col lines = Except.ok G →
        G.edges.Pairwise (fun e f => ¬ sameEdge e f)) ∧
      (∀ (lines : List String) (G : Graph), carregar_grafo_mc lines = Except.ok G →
        G.edges.Pairwise (fun e f => ¬ sameEdge e f)) := by
  refine ⟨?_, ?_, ?_⟩
  · intro G u v hu hv he
    unfold Graph.addEdge
    rw [Graph.addNode_of_mem G u hu, Graph.addNode_of_mem G v hv, he]
    simp
  · intro lines G h
    exact carregar_col_invariant (fun G => G.edges.Pairwise (fun e f => ¬ sameEdge e f))
      (fun G linha G' h hd => carregarLineCol_dedup G (pyStrip linha.data) G' h hd)
      lines Graph.empty G h List.Pairwise.nil
  · intro lines G h
    exact carregar_mc_invariant (fun G => G.edges.Pairwise (fun e f => ¬ sameEdge e f))
      (fun G linha G' h hd => carregarLineMc_dedup G (pyStrip linha.data) G' h hd)
      lines Graph.empty G h List.Pairwise.nil

/-- Witness for C3: re-adding the already-present edge of `gDup` is a
no-op, and the graph loaded from the duplicate-edge file has a
duplicate-free edge list. -/
theorem C3_dedup_witness :
    gDup.addEdge 1 2 = gDup ∧
      gDup.edges.Pairwise (fun e f => ¬ sameEdge e f) :=
  ⟨C3_dedup.1 gDup 1 2 (by decide) (by decide) (by decide),
   C3_dedup.2.2 fileDup gDup (by decide)⟩

/-! ### Claim C7 -/

/-- Claim C7 as stated is false: on the `p` line `p edge 2 3 x` (five
tokens, third token the integer `2`), the coloring/dominating-set loader
succeeds with vertex set `{1, 2}`, but the max-cut loader — which unpacks
the `p` line as exactly four tokens — fails with an unpacking error, so not
all three loaders succeed regardless of the extra tokens. -/
theorem C7_counterexample :
    carregar_grafo_col filePExtra = Except.ok (⟨[1, 2], []⟩ : Graph) ∧
      carregar_grafo_mc filePExtra = Except.error ParseError.malformedP :=
  ⟨by decide, by decide⟩

/-- Claim C7 (amended): on any stripped `p` line (not a `c` line) whose
third whitespace token parses as the integer `N`, the coloring and
dominating-set loader adds exactly the vertices `1..N` no matter how many
tokens the line carries, and never reads the edge-count token; the max-cut
loader does the same if and only if the line has exactly four tokens, and
fails with a malformed-line error otherwise.  In every successful case the
resulting vertex set is the old one extended by `{1, …, N}`. -/
theorem C7_p_line (G : Graph) (t : List Char) (tok : List Char) (n : Int)
    (hc : startsWithChars strC.data t = false)
    (hp : startsWithChars strP.data t = true)
    (htok : (splitWs t)[2]? = some tok)
    (hn : pyInt tok = some n) :
    carregarLineCol G t = Except.ok (G.addNodesRange n) ∧
      ((splitWs t).length = 4 → carregarLineMc G t = Except.ok (G.addNodesRange n)) ∧
      ((splitWs t).length ≠ 4 → carregarLineMc G t = Except.error ParseError.malformedP) ∧
      ∀ x : Int, x ∈ (G.addNodesRange n).nodes ↔ x ∈ G.nodes ∨ (1 ≤ x ∧ x ≤ n) := by
  have hcfalse : ¬ startsWithChars strC.data t = true := by rw [hc]; exact Bool.false_ne_true
  refine ⟨?_, ?_, ?_, fun x => G.addNodesRange_mem n x⟩
  · unfold carregarLineCol
    rw [if_neg hcfalse, if_pos hp, htok]
    simp only [hn]
  · intro hlen
    unfold carregarLineMc
    rw [if_neg hcfalse, if_pos hp]
    rcases hsp : splitWs t with _ | ⟨a, _ | ⟨b, _ | ⟨c3, rest⟩⟩⟩ <;>
      (rw [hsp] at htok; try simp at htok)
    rcases rest with _ | ⟨d, _ | ⟨d2, rest2⟩⟩
    · rw [hsp] at hlen; simp at hlen
    · simp only []
      have htok' : c3 = tok := by simpa using htok
      rw [htok', hn]
    · rw [hsp] at hlen; simp at hlen
  · intro hlen
    unfold carregarLineMc
    rw [if_neg hcfalse, if_pos hp]
    rcases hsp : splitWs t with _ | ⟨a, _ | ⟨b, _ | ⟨c3, rest⟩⟩⟩ <;>
      (rw [hsp] at htok; try simp at htok)
    rcases rest with _ | ⟨d, _ | ⟨d2, rest2⟩⟩
    · rfl
    · exact absurd (by rw [hsp]; rfl) hlen
    · rfl

/-- Witness for C7: the five-token line `p edge 2 3 x` is accepted by the
coloring loader and rejected by the max-cut loader; the four-token line
`p edge 7 3` is accepted by both. -/
theorem C7_p_line_witness :
    carregarLineCol Graph.empty (pyStrip linePExtra.data) =
        Except.ok (Graph.empty.addNodesRange 2) ∧
      carregarLineMc Graph.empty (pyStrip linePExtra.data) =
        Except.error ParseError.malformedP ∧
      carregarLineMc Graph.empty (pyStrip lineP4.data) =
        Except.ok (Graph.empty.addNodesRange 7) :=
  ⟨(C7_p_line Graph.empty (pyStrip linePExtra.data) ['2'] 2
      (by decide) (by decide) (by decide) (by decide)).1,
   (C7_p_line Graph.empty (pyStrip linePExtra.data) ['2'] 2
      (by decide) (by decide) (by decide) (by decide)).2.2.1 (by decide),
   (C7_p_line Graph.empty (pyStrip lineP4.data) ['7'] 7
      (by decide) (by decide) (by decide) (by decide)).2.1 (by decide)⟩

/-! ### Claim C2 -/

/-- Claim C2 as stated is false: with `--start 99` on a two-point instance
(keys `1` and `2`), the run does terminate with status 1 and a diagnostic,
but only after the distance matrix has been built — the trace of `executar`
is `[builtMatrix, exitError]`, the build event strictly preceding the error
exit, whereas the claim requires the failure to be reported before the
matrix is built. -/
theorem C2_counterexample :
    executar fileTsp (some 99) false = [TraceEv.builtMatrix, TraceEv.exitError] := by
  decide

/-- Claim C2 (amended): for every run in single-start mode whose `--start`
value is absent from the non-empty parsed coordinate map, the process
terminates with a non-zero status and a diagnostic message, and this
failure is reported after the distance matrix is built (step 2 of the code
precedes the start-vertex check of step 3) but before any tour is
constructed. -/
theorem C2_unknown_start (lines : List String) (s : Int)
    (hne : ler_tsp lines ≠ []) (hs : s ∉ coordKeys (ler_tsp lines)) :
    executar lines (some s) false = [TraceEv.builtMatrix, TraceEv.exitError] := by
  unfold executar
  rw [if_neg (by rw [List.isEmpty_iff]; exact fun h => hne h)]
  simp only [Bool.false_eq_true, if_false]
  rw [if_neg hs]

/-- Witness for C2 on the two-point instance with the absent start `42`. -/
theorem C2_unknown_start_witness :
    executar fileTsp (some 42) false = [TraceEv.builtMatrix, TraceEv.exitError] :=
  C2_unknown_start fileTsp 42 (by decide) (by decide)

/-! ### Claim C9 -/

theorem sgStep_perm (G : Graph) (AB : List Int × List Int) (v : Int) :
    ((sgStep G AB v).1 ++ (sgStep G AB v).2) ~ v :: (AB.1 ++ AB.2) := by
  simp only [sgStep]
  split
  · exact Perm.refl _
  · split
    · exact List.perm_middle
    · split
      · exact Perm.refl _
      · exact List.perm_middle

theorem sg_foldl_perm (G : Graph) :
    ∀ (l : List Int) (AB : List Int × List Int),
      ((l.foldl (sgStep G) AB).1 ++ (l.foldl (sgStep G) AB).2) ~
        l ++ (AB.1 ++ AB.2) := by
  intro l
  induction l with
  | nil => intro AB; simp
  | cons v l ih =>
    intro AB
    rw [List.foldl_cons]
    exact (ih (sgStep G AB v)).trans
      ((List.Perm.append_left l (sgStep_perm G AB v)).trans List.perm_middle)

theorem sahni_partition_perm (G : Graph) :
    ((sahni_gonzalez_maxcut G).1 ++ (sahni_gonzalez_maxcut G).2) ~ G.nodes := by
  unfold sahni_gonzalez_maxcut
  have h := sg_foldl_perm G (sortAsc G.nodes) ([], [])
  simp only [List.append_nil] at h
  exact h.trans (insSort_perm _ G.nodes)

/-- Claim C9: for every input graph (whose node list, as built by the
loader, has no duplicates), the max-cut engine returns sets `A` and `B`
with `A ∩ B = ∅` and `A ∪ B = V`, each vertex ending up in exactly one of
the two sets exactly once (the single forward pass assigns it once and
never reassigns: the pass only ever inserts the current vertex). -/
theorem C9_partition (G : Graph) (hnd : G.nodes.Nodup) :
    (∀ v : Int,
        ¬ (v ∈ (sahni_gonzalez_maxcut G).1 ∧ v ∈ (sahni_gonzalez_maxcut G).2)) ∧
      (∀ v : Int,
        (v ∈ (sahni_gonzalez_maxcut G).1 ∨ v ∈ (sahni_gonzalez_maxcut G).2) ↔
          v ∈ G.nodes) ∧
      ∀ v ∈ G.nodes,
        ((sahni_gonzalez_maxcut G).1 ++ (sahni_gonzalez_maxcut G).2).count v = 1 := by
  have hperm := sahni_partition_perm G
  have hnodup : ((sahni_gonzalez_maxcut G).1 ++ (sahni_gonzalez_maxcut G).2).Nodup :=
    hperm.nodup_iff.2 hnd
  refine ⟨?_, ?_, ?_⟩
  · rintro v ⟨h1, h2⟩
    obtain ⟨-, -, hdisj⟩ := List.nodup_append.1 hnodup
    exact hdisj h1 h2
  · intro v
    rw [← List.mem_append]
    exact hperm.mem_iff
  · intro v hv
    have hvm : v ∈ (sahni_gonzalez_maxcut G).1 ++ (sahni_gonzalez_maxcut G).2 :=
      hperm.mem_iff.2 hv
    exact List.count_eq_one_of_mem hnodup hvm

/-- Witness for C9 on the specification's 4-cycle example. -/
theorem C9_partition_witness :
    ¬ (1 ∈ (sahni_gonzalez_maxcut g4).1 ∧ 1 ∈ (sahni_gonzalez_maxcut g4).2) ∧
      ((sahni_gonzalez_maxcut g4).1 ++ (sahni_gonzalez_maxcut g4).2).count 2 = 1 :=
  ⟨(C9_partition g4 (by decide)).1 1,
   (C9_partition g4 (by decide)).2.2 2 (by decide)⟩

/-! ### Claim C5 -/

theorem sortAsc_perm (l : List Int) : sortAsc l ~ l :=
  insSort_perm _ l

theorem sortAsc_sorted (l : List Int) :
    (sortAsc l).Pairwise (fun a b : Int => a ≤ b) := by
  have h := insSort_sorted (fun a b : Int => decide (a ≤ b))
    (fun a b => by
      rcases Int.le_total a b with h | h
      · exact Or.inl (decide_eq_true h)
      · exact Or.inr (decide_eq_true h))
    (fun a b cc hab hbc =>
      decide_eq_true (le_trans (of_decide_eq_true hab) (of_decide_eq_true hbc)))
    l
  exact h.imp (fun hab => of_decide_eq_true hab)

theorem domScanStep_isSome (G : Graph) (dom : Int → Bool) (b : Int × Nat)
    (x : Int) : ∃ c, domScanStep G dom (some b) x = some c := by
  cases b with
  | mk b1 b2 =>
    unfold domScanStep
    dsimp only
    split
    · exact ⟨_, rfl⟩
    · exact ⟨_, rfl⟩

theorem domScan_aux_some (G : Graph) (dom : Int → Bool) :
    ∀ (cs : List Int) (acc : Option (Int × Nat)) (res : Int × Nat),
      cs.foldl (domScanStep G dom) acc = some res →
      acc = some res ∨ res.1 ∈ cs := by
  intro cs
  induction cs with
  | nil => intro acc res h; exact Or.inl h
  | cons x cs ih =>
    intro acc res h
    rw [List.foldl_cons] at h
    rcases ih _ res h with h1 | h1
    · cases acc with
      | none =>
        cases h1
        exact Or.inr (List.mem_cons_self x cs)
      | some b =>
        cases b with
        | mk b1 b2 =>
          unfold domScanStep at h1
          dsimp only at h1
          split at h1
          · cases h1
            exact Or.inr (List.mem_cons_self x cs)
          · exact Or.inl h1
    · exact Or.inr (List.mem_cons_of_mem x h1)

theorem domScan_aux_isSome (G : Graph) (dom : Int → Bool) :
    ∀ (cs : List Int) (b : Int × Nat),
      (cs.foldl (domScanStep G dom) (some b)).isSome = true := by
  intro cs
  induction cs with
  | nil => intro b; rfl
  | cons x cs ih =>
    intro b
    rw [List.foldl_cons]
    obtain ⟨c, hc⟩ := domScanStep_isSome G dom b x
    rw [hc]
    exact ih c

theorem selectCand_eq_none (G : Graph) (dom : Int → Bool) (cs : List Int)
    (h : selectCand G dom cs = none) : cs = [] := by
  cases cs with
  | nil => rfl
  | cons x cs =>
    exfalso
    unfold selectCand at h
    rw [List.foldl_cons] at h
    rw [Option.map_eq_none'] at h
    rw [show domScanStep G dom none x = some (x, vizNaoDom G dom x) from rfl] at h
    have hs := domScan_aux_isSome G dom cs (x, vizNaoDom G dom x)
    rw [h] at hs
    cases hs

theorem selectCand_mem (G : Graph) (dom : Int → Bool) (cs : List Int) (v : Int)
    (h : selectCand G dom cs = some v) : v ∈ cs := by
  unfold selectCand at h
  rw [Option.map_eq_some'] at h
  obtain ⟨res, hres, hfst⟩ := h
  rcases domScan_aux_some G dom cs none res hres with h1 | h1
  · cases h1
  · rwa [hfst] at h1

theorem precisaInserir_false_dom (G : Graph) (dom : Int → Bool) (v : Int)
    (h : precisaInserir G dom v = false) : dom v = true := by
  unfold precisaInserir at h
  rw [Bool.or_eq_false_iff] at h
  have := h.1
  rwa [Bool.not_eq_false'] at this

theorem domLoop_cover (G : Graph) :
    ∀ (fuel : Nat) (cs : List Int) (dom : Int → Bool) (S : List Int),
      cs.length ≤ fuel →
      (∀ u : Int, dom u = true → u ∈ S ∨ ∃ w ∈ S, u ∈ G.neighbors w) →
      (∀ u : Int, u ∈ G.nodes → u ∉ cs → dom u = true) →
      ∀ u ∈ G.nodes,
        u ∈ domLoop G fuel cs dom S ∨
          ∃ w ∈ domLoop G fuel cs dom S, u ∈ G.neighbors w := by
  intro fuel
  induction fuel with
  | zero =>
    intro cs dom S hlen h1 h2 u hu
    have hcs : cs = [] := List.length_eq_zero.1 (Nat.le_zero.1 hlen)
    simp only [domLoop]
    exact h1 u (h2 u hu (by rw [hcs]; exact List.not_mem_nil u))
  | succ fuel ih =>
    intro cs dom S hlen h1 h2 u hu
    simp only [domLoop]
    cases hsel : selectCand G dom cs with
    | none =>
      have hcs := selectCand_eq_none G dom cs hsel
      exact h1 u (h2 u hu (by rw [hcs]; exact List.not_mem_nil u))
    | some v =>
      have hv : v ∈ cs := selectCand_mem G dom cs v hsel
      have hlen' : (cs.erase v).length ≤ fuel := by
        rw [List.length_erase_of_mem hv]
        omega
      show u ∈ (if precisaInserir G dom v = true
            then domLoop G fuel (cs.erase v) (markDom G dom v) (v :: S)
            else domLoop G fuel (cs.erase v) dom S) ∨
          ∃ w ∈ (if precisaInserir G dom v = true
            then domLoop G fuel (cs.erase v) (markDom G dom v) (v :: S)
            else domLoop G fuel (cs.erase v) dom S), u ∈ G.neighbors w
      split
      · apply ih (cs.erase v) (markDom G dom v) (v :: S) hlen'
        · intro w hw
          unfold markDom at hw
          split at hw
          · rename_i hcond
            rcases hcond with rfl | hcond
            · exact Or.inl (List.mem_cons_self w S)
            · exact Or.inr ⟨v, List.mem_cons_self v S, hcond⟩
          · rcases h1 w hw with h | ⟨z, hz, hzn⟩
            · exact Or.inl (List.mem_cons_of_mem v h)
            · exact Or.inr ⟨z, List.mem_cons_of_mem v hz, hzn⟩
        · intro w hwn hwe
          unfold markDom
          split
          · rfl
          · rename_i hcond
            have hwv : w ≠ v := fun h => hcond (Or.inl h)
            apply h2 w hwn
            intro hwcs
            exact hwe ((List.mem_erase_of_ne hwv).2 hwcs)
        · exact hu
      · rename_i hprec
        apply ih (cs.erase v) dom S hlen' h1
        · intro w hwn hwe
          by_cases hwv : w = v
          · rw [hwv]
            exact precisaInserir_false_dom G dom v (Bool.not_eq_true _ ▸ hprec)
          · apply h2 w hwn
            intro hwcs
            exact hwe ((List.mem_erase_of_ne hwv).2 hwcs)
        · exact hu

theorem dominante_cover (G : Graph) :
    ∀ v ∈ G.nodes,
      v ∈ conjunto_dominante_aproximado G ∨
        ∃ u ∈ conjunto_dominante_aproximado G, v ∈ G.neighbors u := by
  intro v hv
  unfold conjunto_dominante_aproximado
  have h := domLoop_cover G G.nodes.length (sortAsc G.nodes) (fun _ => false) []
    (le_of_eq (sortAsc_perm G.nodes).length_eq)
    (fun u hu => absurd hu (by simp))
    (fun u hun hu => absurd ((sortAsc_perm G.nodes).mem_iff.2 hun) hu)
    v hv
  rcases h with h | ⟨w, hw, hwn⟩
  · exact Or.inl ((sortAsc_perm _).mem_iff.2 h)
  · exact Or.inr ⟨w, (sortAsc_perm _).mem_iff.2 hw, hwn⟩

/-! ### Claim C4 -/

theorem nnScanStep_isSome {α : Type} [LinearOrderedAddCommGroup α]
    (dist : Int → Int → α) (current : Int) (b : Int × α) (x : Int) :
    ∃ c, nnScanStep dist current (some b) x = some c := by
  cases b with
  | mk b1 b2 =>
    unfold nnScanStep
    dsimp only
    split
    · exact ⟨_, rfl⟩
    · exact ⟨_, rfl⟩

theorem nnScan_aux_some {α : Type} [LinearOrderedAddCommGroup α]
    (dist : Int → Int → α) (current : Int) :
    ∀ (cs : List Int) (acc : Option (Int × α)) (res : Int × α),
      cs.foldl (nnScanStep dist current) acc = some res →
      acc = some res ∨ (res.1 ∈ cs ∧ res.2 = dist current res.1) := by
  intro cs
  induction cs with
  | nil => intro acc res h; exact Or.inl h
  | cons x cs ih =>
    intro acc res h
    rw [List.foldl_cons] at h
    rcases ih _ res h with h1 | h1
    · cases acc with
      | none =>
        cases h1
        exact Or.inr ⟨List.mem_cons_self x cs, rfl⟩
      | some b =>
        cases b with
        | mk b1 b2 =>
          unfold nnScanStep at h1
          dsimp only at h1
          split at h1
          · cases h1
            exact Or.inr ⟨List.mem_cons_self x cs, rfl⟩
          · exact Or.inl h1
    · exact Or.inr ⟨List.mem_cons_of_mem x h1.1, h1.2⟩

theorem nnScan_aux_isSome {α : Type} [LinearOrderedAddCommGroup α]
    (dist : Int → Int → α) (current : Int) :
    ∀ (cs : List Int) (b : Int × α),
      (cs.foldl (nnScanStep dist current) (some b)).isSome = true := by
  intro cs
  induction cs with
  | nil => intro b; rfl
  | cons x cs ih =>
    intro b
    rw [List.foldl_cons]
    obtain ⟨c, hc⟩ := nnScanStep_isSome dist current b x
    rw [hc]
    exact ih c

theorem selectBest_eq_none {α : Type} [LinearOrderedAddCommGroup α]
    (dist : Int → Int → α) (current : Int) (cs : List Int)
    (h : selectBest dist current cs = none) : cs = [] := by
  cases cs with
  | nil => rfl
  | cons x cs =>
    exfalso
    unfold selectBest at h
    rw [List.foldl_cons] at h
    rw [show nnScanStep dist current none x = some (x, dist current x) from rfl] at h
    have hs := nnScan_aux_isSome dist current cs (x, dist current x)
    rw [h] at hs
    cases hs

theorem selectBest_spec {α : Type} [LinearOrderedAddCommGroup α]
    (dist : Int → Int → α) (current : Int) (cs : List Int) (b : Int) (bd : α)
    (h : selectBest dist current cs = some (b, bd)) :
    b ∈ cs ∧ bd = dist current b := by
  unfold selectBest at h
  rcases nnScan_aux_some dist current cs none (b, bd) h with h1 | h1
  · cases h1
  · exact h1

theorem getLast?_dropLast_append (l : List Int) (a : Int)
    (h : l.getLast? = some a) : l.dropLast ++ [a] = l := by
  induction l with
  | nil => cases h
  | cons x l ih =>
    cases l with
    | nil =>
      have hx : x = a := by
        rw [List.getLast?_singleton] at h
        exact Option.some_inj.1 h
      rw [hx]
      rfl
    | cons y l =>
      rw [List.getLast?_cons_cons] at h
      rw [List.dropLast_cons₂, List.cons_append, ih h]

theorem nnAux_spec {α : Type} [LinearOrderedAddCommGroup α]
    (dist : Int → Int → α) (start : Int) :
    ∀ (fuel : Nat) (current : Int) (unvisited : List Int),
      unvisited.length ≤ fuel →
      ((nnAux dist start fuel current unvisited).2 ~ unvisited ++ [start]) ∧
        ((nnAux dist start fuel current unvisited).2.getLast? = some start) ∧
        ((nnAux dist start fuel current unvisited).1 =
          tourCost dist (current :: (nnAux dist start fuel current unvisited).2)) := by
  intro fuel
  induction fuel with
  | zero =>
    intro current unvisited hlen
    have hu : unvisited = [] := List.length_eq_zero.1 (Nat.le_zero.1 hlen)
    rw [hu]
    simp only [nnAux]
    refine ⟨by simp, rfl, ?_⟩
    simp [tourCost]
  | succ fuel ih =>
    intro current unvisited hlen
    simp only [nnAux]
    cases hsel : selectBest dist current unvisited with
    | none =>
      have hu : unvisited = [] := selectBest_eq_none dist current unvisited hsel
      rw [hu]
      refine ⟨by simp, rfl, ?_⟩
      simp [tourCost]
    | some bp =>
      cases bp with
      | mk b bd =>
        obtain ⟨hmem, hbd⟩ := selectBest_spec dist current unvisited b bd hsel
        have hlen' : (unvisited.erase b).length ≤ fuel := by
          rw [List.length_erase_of_mem hmem]
          omega
        obtain ⟨hperm, hlast, hcost⟩ := ih b (unvisited.erase b) hlen'
        have hne : (nnAux dist start fuel b (unvisited.erase b)).2 ≠ [] := by
          intro h0
          rw [h0] at hlast
          cases hlast
        refine ⟨?_, ?_, ?_⟩
        · show b :: (nnAux dist start fuel b (unvisited.erase b)).2 ~ unvisited ++ [start]
          have h1 : b :: (nnAux dist start fuel b (unvisited.erase b)).2 ~
              b :: (unvisited.erase b ++ [start]) := hperm.cons b
          have h2 : (b :: unvisited.erase b) ++ [start] ~ unvisited ++ [start] :=
            List.Perm.append_right [start] (List.perm_cons_erase hmem).symm
          exact h1.trans h2
        · show (b :: (nnAux dist start fuel b (unvisited.erase b)).2).getLast? = some start
          cases hl : (nnAux dist start fuel b (unvisited.erase b)).2 with
          | nil => exact absurd hl hne
          | cons p q =>
            rw [List.getLast?_cons_cons]
            rw [← hl]
            exact hlast
        · show bd + (nnAux dist start fuel b (unvisited.erase b)).1 =
            tourCost dist (current :: b :: (nnAux dist start fuel b (unvisited.erase b)).2)
          rw [hcost, hbd]
          rfl

/-- Claim C4: for every distance function (in particular the one stored by
the distance-matrix builder), every duplicate-free key list and every start
vertex in it, `nearest_neighbor_tour` returns a tour that starts at the
start vertex, visits every declared vertex exactly once (the tour without
its final element is a duplicate-free permutation of the keys), closes the
cycle by ending at the start vertex again, and a total cost equal to the
sum of the consecutive pairwise distances along the tour, the closing edge
included. -/
theorem C4_nn_tour {α : Type} [LinearOrderedAddCommGroup α]
    (dist : Int → Int → α) (nodes : List Int) (start : Int)
    (hnd : nodes.Nodup) (hs : start ∈ nodes) :
    ((nearest_neighbor_tour dist nodes start).2.head? = some start) ∧
      ((nearest_neighbor_tour dist nodes start).2.getLast? = some start) ∧
      ((nearest_neighbor_tour dist nodes start).2.dropLast ~ nodes) ∧
      ((nearest_neighbor_tour dist nodes start).2.dropLast.Nodup) ∧
      ((nearest_neighbor_tour dist nodes start).1 =
        tourCost dist (nearest_neighbor_tour dist nodes start).2) := by
  simp only [nearest_neighbor_tour]
  obtain ⟨hperm, hlast, hcost⟩ := nnAux_spec dist start
    (nodes.filter (fun v => v ≠ start)).length start
    (nodes.filter (fun v => v ≠ start)) (le_refl _)
  have hne : (nnAux dist start (nodes.filter (fun v => v ≠ start)).length start
      (nodes.filter (fun v => v ≠ start))).2 ≠ [] := by
    intro h0
    rw [h0] at hlast
    cases hlast
  have hfe : nodes.filter (fun v => v ≠ start) = nodes.erase start := by
    rw [List.Nodup.erase_eq_filter hnd start]
    apply List.filter_congr
    intro a _
    by_cases h : a = start
    · simp [h]
    · simp [h]
  have hdp : (nnAux dist start (nodes.filter (fun v => v ≠ start)).length start
      (nodes.filter (fun v => v ≠ start))).2.dropLast ~
      nodes.filter (fun v => v ≠ start) := by
    have heq := getLast?_dropLast_append _ _ hlast
    exact (List.perm_append_right_iff [start]).1 (heq.symm ▸ hperm)
  refine ⟨rfl, ?_, ?_, ?_, ?_⟩
  · cases hl : (nnAux dist start (nodes.filter (fun v => v ≠ start)).length start
        (nodes.filter (fun v => v ≠ start))).2 with
    | nil => exact absurd hl hne
    | cons p q =>
      rw [List.getLast?_cons_cons, ← hl]
      exact hlast
  · cases hl : (nnAux dist start (nodes.filter (fun v => v ≠ start)).length start
        (nodes.filter (fun v => v ≠ start))).2 with
    | nil => exact absurd hl hne
    | cons p q =>
      rw [List.dropLast_cons₂]
      have hdp' : (p :: q).dropLast ~ nodes.erase start := by
        rw [← hfe, ← hl]
        exact hdp
      exact (hdp'.cons start).trans (List.perm_cons_erase hs).symm
  · cases hl : (nnAux dist start (nodes.filter (fun v => v ≠ start)).length start
        (nodes.filter (fun v => v ≠ start))).2 with
    | nil => exact absurd hl hne
    | cons p q =>
      have hdp2 : (start :: p :: q).dropLast ~ nodes := by
        rw [List.dropLast_cons₂]
        have hdp' : (p :: q).dropLast ~ nodes.erase start := by
          rw [← hfe, ← hl]
          exact hdp
        exact (hdp'.cons start).trans (List.perm_cons_erase hs).symm
      exact hdp2.nodup_iff.2 hnd
  · exact hcost

/-- Witness for C4 on the specification's three-point TSP example
(`1:(0,0)`, `2:(10,0)`, `3:(1,0)`, start `1`): the tour is `1 3 2 1` with
cost `1 + 9 + 10 = 20`. -/
theorem C4_nn_tour_witness :
    ((nearest_neighbor_tour distW4 [1, 2, 3] 1).2.head? = some 1) ∧
      ((nearest_neighbor_tour distW4 [1, 2, 3] 1).2.dropLast ~ [1, 2, 3]) ∧
      ((nearest_neighbor_tour distW4 [1, 2, 3] 1).1 =
        tourCost distW4 (nearest_neighbor_tour distW4 [1, 2, 3] 1).2) ∧
      nearest_neighbor_tour distW4 [1, 2, 3] 1 = (20, [1, 3, 2, 1]) :=
  ⟨(C4_nn_tour distW4 [1, 2, 3] 1 (by decide) (by decide)).1,
   (C4_nn_tour distW4 [1, 2, 3] 1 (by decide) (by decide)).2.2.1,
   (C4_nn_tour distW4 [1, 2, 3] 1 (by decide) (by decide)).2.2.2.2,
   by decide⟩

/-! ### Claim C8 -/

/-- Claim C8: every diagonal entry stored by the distance-matrix builder is
`0`; with the rounding flag set, every off-diagonal entry equals
`floor(d + 0.5)` of the Euclidean distance `d` (Python's `int()` truncates
toward zero, and `d + 0.5 ≥ 0` since `d` is a square root, so the
truncation is the floor) and is integer-valued; with the flag unset, the
stored entry is the raw Euclidean distance. -/
theorem C8_matrix (coords : Int → ℚ × ℚ) (use_round : Bool) (i j : Int) :
    construir_matriz_distancias coords use_round i i = 0 ∧
      (i ≠ j → use_round = true →
        construir_matriz_distancias coords use_round i j =
            ((⌊euclid_dist (coords i) (coords j) + 1 / 2⌋ : ℤ) : ℝ) ∧
          ∃ k : ℤ, construir_matriz_distancias coords use_round i j = (k : ℝ)) ∧
      (i ≠ j → use_round = false →
        construir_matriz_distancias coords use_round i j =
          euclid_dist (coords i) (coords j)) := by
  have hnn : (0 : ℝ) ≤ euclid_dist (coords i) (coords j) + 1 / 2 :=
    add_nonneg (Real.sqrt_nonneg _) (by norm_num)
  refine ⟨?_, ?_, ?_⟩
  · unfold construir_matriz_distancias
    rw [if_pos rfl]
  · intro hne hr
    unfold construir_matriz_distancias
    rw [if_neg hne, hr, if_pos rfl]
    unfold pyTrunc
    rw [if_pos hnn]
    exact ⟨rfl, ⟨_, rfl⟩⟩
  · intro hne hr
    unfold construir_matriz_distancias
    rw [if_neg hne, hr]
    simp

/-- Witness for C8 at the points `(0,0)` and `(3,4)`: the Euclidean
distance is `5`, the rounded entry is the integer `⌊5.5⌋ = 5`, the diagonal
is `0`, and the unrounded entry is the raw distance. -/
theorem C8_matrix_witness :
    construir_matriz_distancias coordsW8 true 1 1 = 0 ∧
      (∃ k : ℤ, construir_matriz_distancias coordsW8 true 1 2 = (k : ℝ)) ∧
      construir_matriz_distancias coordsW8 true 1 2 = 5 ∧
      construir_matriz_distancias coordsW8 false 1 2 =
        euclid_dist (coordsW8 1) (coordsW8 2) := by
  have h5 : euclid_dist (coordsW8 1) (coordsW8 2) = 5 := by
    unfold euclid_dist coordsW8
    norm_num
    rw [show (25 : ℝ) = 5 ^ 2 by norm_num]
    exact Real.sqrt_sq (by norm_num)
  refine ⟨(C8_matrix coordsW8 true 1 1).1,
    ((C8_matrix coordsW8 true 1 2).2.1 (by decide) rfl).2, ?_,
    (C8_matrix coordsW8 false 1 2).2.2 (by decide) rfl⟩
  rw [((C8_matrix coordsW8 true 1 2).2.1 (by decide) rfl).1, h5]
  norm_num

/-- Claim C5: for every input graph, the sequence returned by the
dominating-set engine covers the graph — every vertex is in `S` or is a
neighbor of some member of `S` — and is returned sorted in ascending
order. -/
theorem C5_dominating (G : Graph) :
    (∀ v ∈ G.nodes,
        v ∈ conjunto_dominante_aproximado G ∨
          ∃ u ∈ conjunto_dominante_aproximado G, v ∈ G.neighbors u) ∧
      (conjunto_dominante_aproximado G).Pairwise (fun a b : Int => a ≤ b) :=
  ⟨fun v hv => dominante_cover G v hv, sortAsc_sorted _⟩

/-! ### Claim C10 -/

theorem carregarLineCol_nodes (G : Graph) (t : List Char) (G' : Graph)
    (h : carregarLineCol G t = Except.ok G') (x : Int) :
    x ∈ G'.nodes ↔
      x ∈ G.nodes ∨ pDeclaresColT t x = true ∨ eMentionsT t x = true := by
  unfold carregarLineCol at h
  unfold pDeclaresColT eMentionsT
  split at h
  · rename_i hc
    cases h
    simp [hc]
  · rename_i hc
    rw [Bool.not_eq_true] at hc
    split at h
    · rename_i hp
      split at h
      · cases h
      · rename_i tok htok
        split at h
        · cases h
        · rename_i n hn
          cases h
          rw [Graph.addNodesRange_mem]
          simp [hc, hp, htok, hn]
    · rename_i hp
      rw [Bool.not_eq_true] at hp
      split at h
      · rename_i hE
        split at h
        · rename_i x0 hd us vs hsp
          split at h
          · rename_i u v hu hv
            cases h
            rw [Graph.addEdge_nodes_mem]
            simp [hc, hp, hE, hsp, hu, hv]
          · cases h
        · cases h
      · rename_i hE
        rw [Bool.not_eq_true] at hE
        cases h
        simp [hc, hp, hE]

theorem carregarLineMc_nodes (G : Graph) (t : List Char) (G' : Graph)
    (h : carregarLineMc G t = Except.ok G') (x : Int) :
    x ∈ G'.nodes ↔
      x ∈ G.nodes ∨ pDeclaresMcT t x = true ∨ eMentionsT t x = true := by
  unfold carregarLineMc at h
  unfold pDeclaresMcT eMentionsT
  split at h
  · rename_i hc
    cases h
    simp [hc]
  · rename_i hc
    rw [Bool.not_eq_true] at hc
    split at h
    · rename_i hp
      split at h
      · rename_i x0 h1 h2 ns h3 hsp
        split at h
        · cases h
        · rename_i n hn
          cases h
          rw [Graph.addNodesRange_mem]
          simp [hc, hp, hsp, hn]
      · cases h
    · rename_i hp
      rw [Bool.not_eq_true] at hp
      split at h
      · rename_i hE
        split at h
        · rename_i x0 hd us vs hsp
          split at h
          · rename_i u v hu hv
            cases h
            rw [Graph.addEdge_nodes_mem]
            simp [hc, hp, hE, hsp, hu, hv]
          · cases h
        · cases h
      · rename_i hE
        rw [Bool.not_eq_true] at hE
        cases h
        simp [hc, hp, hE]

theorem carregar_col_nodes_aux :
    ∀ (lines : List String) (G0 G : Graph),
      lines.foldlM carregarStepCol G0 = Except.ok G →
      ∀ x : Int,
        x ∈ G.nodes ↔
          x ∈ G0.nodes ∨
            ∃ l ∈ lines, pDeclaresCol l x = true ∨ eMentions l x = true := by
  intro lines
  induction lines with
  | nil =>
    intro G0 G h x
    simp only [List.foldlM_nil] at h
    cases h
    simp
  | cons l ls ih =>
    intro G0 G h x
    rw [List.foldlM_cons] at h
    cases hstep : carregarStepCol G0 l with
    | error e =>
      rw [hstep] at h
      cases h
    | ok G1 =>
      rw [hstep] at h
      rw [ih G1 G h x, carregarLineCol_nodes G0 (pyStrip l.data) G1 hstep x]
      unfold pDeclaresCol eMentions
      simp only [List.mem_cons, exists_eq_or_imp]
      constructor
      · rintro ((h0 | hP | hE) | ⟨w, hw, hPE⟩)
        · exact Or.inl h0
        · exact Or.inr (Or.inl (Or.inl hP))
        · exact Or.inr (Or.inl (Or.inr hE))
        · exact Or.inr (Or.inr ⟨w, hw, hPE⟩)
      · rintro (h0 | (hP | hE) | ⟨w, hw, hPE⟩)
        · exact Or.inl (Or.inl h0)
        · exact Or.inl (Or.inr (Or.inl hP))
        · exact Or.inl (Or.inr (Or.inr hE))
        · exact Or.inr ⟨w, hw, hPE⟩

theorem carregar_mc_nodes_aux :
    ∀ (lines : List String) (G0 G : Graph),
      lines.foldlM carregarStepMc G0 = Except.ok G →
      ∀ x : Int,
        x ∈ G.nodes ↔
          x ∈ G0.nodes ∨
            ∃ l ∈ lines, pDeclaresMc l x = true ∨ eMentions l x = true := by
  intro lines
  induction lines with
  | nil =>
    intro G0 G h x
    simp only [List.foldlM_nil] at h
    cases h
    simp
  | cons l ls ih =>
    intro G0 G h x
    rw [List.foldlM_cons] at h
    cases hstep : carregarStepMc G0 l with
    | error e =>
      rw [hstep] at h
      cases h
    | ok G1 =>
      rw [hstep] at h
      rw [ih G1 G h x, carregarLineMc_nodes G0 (pyStrip l.data) G1 hstep x]
      unfold pDeclaresMc eMentions
      simp only [List.mem_cons, exists_eq_or_imp]
      constructor
      · rintro ((h0 | hP | hE) | ⟨w, hw, hPE⟩)
        · exact Or.inl h0
        · exact Or.inr (Or.inl (Or.inl hP))
        · exact Or.inr (Or.inl (Or.inr hE))
        · exact Or.inr (Or.inr ⟨w, hw, hPE⟩)
      · rintro (h0 | (hP | hE) | ⟨w, hw, hPE⟩)
        · exact Or.inl (Or.inl h0)
        · exact Or.inl (Or.inr (Or.inl hP))
        · exact Or.inl (Or.inr (Or.inr hE))
        · exact Or.inr ⟨w, hw, hPE⟩

/-- Claim C10 as stated is false in its "appear in the returned dominating
set" part: on the file declaring the single vertex `1` with the edge
`e 7 9`, the loader does add the out-of-range endpoints `7` and `9` as
vertices, but the returned dominating set is `[1, 7]` — the out-of-range
endpoint `9` is not a member of it (it is merely covered by `7`). -/
theorem C10_counterexample :
    carregar_grafo_col fileOut = Except.ok gOut ∧
      9 ∈ gOut.nodes ∧
      conjunto_dominante_aproximado gOut = [1, 7] ∧
      9 ∉ conjunto_dominante_aproximado gOut :=
  ⟨by decide, by decide, by decide, by decide⟩

/-- Claim C10 (amended): an `e u v` line with endpoints outside the
declared range enlarges the vertex set — for both loaders, the node set of
every successfully loaded graph is exactly the union of the `p`-declared
ranges and the `e`-line endpoints — and every engine operates on that
enlarged set: the coloring assigns every node (out-of-range endpoints
included) a positive color, the dominating set covers every node (as a
member or a neighbor of a member, though not necessarily as a member), and
the cut partition contains every node on one of its two sides. -/
theorem C10_enlarged :
    (∀ (lines : List String) (G : Graph), carregar_grafo_col lines = Except.ok G →
        ∀ x : Int, x ∈ G.nodes ↔
          ∃ l ∈ lines, pDeclaresCol l x = true ∨ eMentions l x = true) ∧
      (∀ (lines : List String) (G : Graph), carregar_grafo_mc lines = Except.ok G →
        ∀ x : Int, x ∈ G.nodes ↔
          ∃ l ∈ lines, pDeclaresMc l x = true ∨ eMentions l x = true) ∧
      (∀ G : Graph, ∀ x ∈ G.nodes, 0 < welsh_powell G x) ∧
      (∀ G : Graph, ∀ x ∈ G.nodes,
        x ∈ conjunto_dominante_aproximado G ∨
          ∃ u ∈ conjunto_dominante_aproximado G, x ∈ G.neighbors u) ∧
      ∀ G : Graph, ∀ x ∈ G.nodes,
        x ∈ (sahni_gonzalez_maxcut G).1 ∨ x ∈ (sahni_gonzalez_maxcut G).2 := by
  refine ⟨?_, ?_, ?_, ?_, ?_⟩
  · intro lines G h x
    rw [carregar_col_nodes_aux lines Graph.empty G h x]
    simp [Graph.empty]
  · intro lines G h x
    rw [carregar_mc_nodes_aux lines Graph.empty G h x]
    simp [Graph.empty]
  · intro G x hx
    exact Nat.pos_of_ne_zero ((welsh_powell_proper G).2 x hx)
  · intro G x hx
    exact dominante_cover G x hx
  · intro G x hx
    rw [← List.mem_append]
    exact (sahni_partition_perm G).mem_iff.2 hx

/-- Witness for C10 on the file with the out-of-range edge `e 7 9`: the
endpoint `9` is a node exactly because of that `e` line, it receives a
positive color, it is covered by the dominating set, and it lies on one
side of the cut. -/
theorem C10_enlarged_witness :
    (9 ∈ gOut.nodes ↔
        ∃ l ∈ fileOut, pDeclaresCol l 9 = true ∨ eMentions l 9 = true) ∧
      0 < welsh_powell gOut 9 ∧
      (9 ∈ conjunto_dominante_aproximado gOut ∨
        ∃ u ∈ conjunto_dominante_aproximado gOut, 9 ∈ gOut.neighbors u) ∧
      (9 ∈ (sahni_gonzalez_maxcut gOut).1 ∨ 9 ∈ (sahni_gonzalez_maxcut gOut).2) :=
  ⟨C10_enlarged.1 fileOut gOut (by decide) 9,
   C10_enlarged.2.2.1 gOut 9 (by decide),
   C10_enlarged.2.2.2.1 gOut 9 (by decide),
   C10_enlarged.2.2.2.2 gOut 9 (by decide)⟩
